import Mathlib

/-!
Shallow embedding of the CI pipeline visualization core of the `git-igitt`
repository, together with theorems settling the specification claims.

Sources embedded:
  - `src/gitlab/models.rs` : status enum, jobs, stages, `PipelineDetails::from_jobs`
  - `src/gitlab/mod.rs`    : API client composition and URL building
  - `src/widgets/pipeline_view.rs` : view state, result cache, selection,
    log parsing, ANSI styling, layout engine, `row_count`

Machine integers (`u16`, `u64`, `usize`) are modelled as `Nat`; `saturating_sub`
becomes truncated subtraction `∸`, which is `Nat.sub`.  Where a theorem's
validity could depend on `u16` overflow, an explicit bound hypothesis keeps the
`Nat` model inside the faithful regime.
-/

/-- `PipelineStatus` from `src/gitlab/models.rs`. -/
inductive PipelineStatus where
  | created
  | waitingForResource
  | preparing
  | pending
  | running
  | success
  | failed
  | canceled
  | canceling
  | skipped
  | manual
  | scheduled
deriving DecidableEq, Repr

/-- `Pipeline` record from `src/gitlab/models.rs` (string-typed fields kept as
`Option String`; `id`/`iid` are `u64`, modelled as `Nat`). -/
structure Pipeline where
  id : Nat
  iid : Option Nat
  status : PipelineStatus
  sha : String
  ref_name : Option String
  web_url : Option String
  created_at : Option String
  updated_at : Option String
deriving DecidableEq, Repr

/-- `Job` record from `src/gitlab/models.rs`.  The `duration: Option<f64>`
field is floating point data that no modelled operation reads; it is omitted
from the embedding. -/
structure Job where
  id : Nat
  name : String
  status : PipelineStatus
  stage : String
  web_url : Option String
  started_at : Option String
  finished_at : Option String
  allow_failure : Option Bool
deriving DecidableEq, Repr

/-- `Stage` from `src/gitlab/models.rs`: a name plus its jobs in order. -/
structure Stage where
  name : String
  jobs : List Job
deriving DecidableEq, Repr

/-- `Stage::status` from `src/gitlab/models.rs`.  The Rust loop computes three
flags over the job list and then selects via an if-chain; the flag loop is a
left fold over the jobs. -/
def statusFlagsStep (flags : Bool × Bool × Bool) (job : Job) : Bool × Bool × Bool :=
  match job.status with
  | .failed =>
      if !(job.allow_failure.getD false) then (true, flags.2.1, flags.2.2) else flags
  | .running => (flags.1, true, flags.2.2)
  | .pending => (flags.1, flags.2.1, true)
  | .waitingForResource => (flags.1, flags.2.1, true)
  | .preparing => (flags.1, flags.2.1, true)
  | _ => flags

/-- The if-chain of `Stage::status`, after the flag-computing loop. -/
def Stage.status (s : Stage) : PipelineStatus :=
  let flags := s.jobs.foldl statusFlagsStep (false, false, false)
  if flags.1 then .failed
  else if flags.2.1 then .running
  else if flags.2.2 then .pending
  else if s.jobs.all (fun j => j.status == .success) then .success
  else if s.jobs.all (fun j => j.status == .skipped) then .skipped
  else .created

/-- `Stage::has_mixed_failure` from `src/gitlab/models.rs`. -/
def Stage.has_mixed_failure (s : Stage) : Bool :=
  (s.jobs.any fun j => j.status == .failed && !(j.allow_failure.getD false)) &&
  (s.jobs.any fun j => j.status != .failed || j.allow_failure.getD false)

/-- `PipelineDetails` from `src/gitlab/models.rs`. -/
structure PipelineDetails where
  pipeline : Option Pipeline
  stages : List Stage
deriving DecidableEq, Repr

/-- One step of the grouping loop in `PipelineDetails::from_jobs`: push the job
onto the first stage with a matching name (`iter_mut().find`), or append a new
stage holding just this job. -/
def insertJob (stages : List Stage) (job : Job) : List Stage :=
  match stages with
  | [] => [⟨job.stage, [job]⟩]
  | s :: rest =>
      if s.name = job.stage then ⟨s.name, s.jobs ++ [job]⟩ :: rest
      else s :: insertJob rest job

/-- The sort key of `stages.sort_by_key` in `from_jobs`:
`s.jobs.iter().map(|j| j.id).min().unwrap_or(u64::MAX)`. -/
def stageMinKey (s : Stage) : Nat :=
  ((s.jobs.map Job.id).min?).getD (2 ^ 64 - 1)

/-- `PipelineDetails::from_jobs`: group the flat job list by stage name in
first-seen order, then stable-sort stages by minimum job id (Rust's
`sort_by_key` is a stable sort; `List.mergeSort` is its stable counterpart). -/
def PipelineDetails.from_jobs (pipeline : Pipeline) (jobs : List Job) : PipelineDetails :=
  let stages := jobs.foldl insertJob []
  { pipeline := some pipeline
    stages := stages.mergeSort fun a b => decide (stageMinKey a ≤ stageMinKey b) }

/-- `PipelineDetails::status`. -/
def PipelineDetails.status (d : PipelineDetails) : Option PipelineStatus :=
  d.pipeline.map Pipeline.status

/-- `PipelineStatus::is_active` from `src/gitlab/models.rs`. -/
def PipelineStatus.is_active (s : PipelineStatus) : Bool :=
  match s with
  | .running | .pending | .waitingForResource | .preparing => true
  | _ => false

/-! ## View state and result cache (`src/widgets/pipeline_view.rs`) -/

/-- `MIN_STAGE_WIDTH` constant. -/
def MIN_STAGE_WIDTH : Nat := 16

/-- `CONNECTOR_WIDTH` constant. -/
def CONNECTOR_WIDTH : Nat := 5

/-- `MAX_CACHE_SIZE` constant. -/
def MAX_CACHE_SIZE : Nat := 100

/-- An RGB color, the only `ratatui::style::Color` constructor this code uses. -/
structure Rgb where
  r : Nat
  g : Nat
  b : Nat
deriving DecidableEq, Repr

/-- The projection of `ratatui::style::Style` onto the fields this code writes:
a foreground color and the BOLD modifier. -/
structure Style where
  fg : Option Rgb
  bold : Bool
deriving DecidableEq, Repr

/-- `Style::default()`. -/
def Style.default : Style := ⟨none, false⟩

/-- `LogLine` from `src/widgets/pipeline_view.rs`. -/
structure LogLine where
  timestamp : Option String
  content : String
  styled : List (String × Style)
  duration : Option String
deriving DecidableEq, Repr

/-- `CachedPipeline` from `src/widgets/pipeline_view.rs`. -/
inductive CachedPipeline where
  | found (details : PipelineDetails)
  | notFound
  | error (msg : String)
deriving DecidableEq, Repr

/-- Key membership on the association-list model of the `HashMap`
(`cache.contains_key`).  Hash maps expose no internal order, so an
association list with unique keys is an exact model. -/
def mapContains (m : List (String × CachedPipeline)) (k : String) : Bool :=
  m.any fun p => p.1 == k

/-- `HashMap::insert`: replace the value if the key is present, else add the
entry.  (Position in the list is unobservable map-internal order.) -/
def mapInsert (m : List (String × CachedPipeline)) (k : String) (v : CachedPipeline) :
    List (String × CachedPipeline) :=
  if mapContains m k then m.map fun p => if p.1 == k then (k, v) else p
  else m ++ [(k, v)]

/-- `HashMap::remove`. -/
def mapRemove (m : List (String × CachedPipeline)) (k : String) :
    List (String × CachedPipeline) :=
  m.eraseP fun p => p.1 == k

/-- `HashMap::get`. -/
def mapGet (m : List (String × CachedPipeline)) (k : String) : Option CachedPipeline :=
  (m.find? fun p => p.1 == k).map Prod.snd

/-- `PipelineViewState` from `src/widgets/pipeline_view.rs`.  The two hash maps
are modelled as association lists; `u16`/`u8` counters as `Nat`. -/
structure PipelineViewState where
  details : Option PipelineDetails
  current_sha : Option String
  selected_stage : Nat
  selected_job : Nat
  scroll_x : Nat
  scroll_y : Nat
  error : Option String
  loading : Bool
  cache : List (String × CachedPipeline)
  cache_order : List String
  animation_tick : Nat
  job_log : List LogLine
  job_log_job_id : Option Nat
  job_log_scroll : Nat
  job_log_loading : Bool
  job_log_error : Option String
  job_log_cache : List (Nat × String)
  job_log_focused : Bool
  job_log_visible_height : Nat
deriving DecidableEq, Repr

/-- `PipelineViewState::cache_result`. -/
def PipelineViewState.cache_result (st : PipelineViewState) (sha : String)
    (result : CachedPipeline) : PipelineViewState :=
  let st :=
    if st.cache.length ≥ MAX_CACHE_SIZE then
      match st.cache_order.head? with
      | some old_sha =>
          { st with cache := mapRemove st.cache old_sha,
                    cache_order := st.cache_order.drop 1 }
      | none => st
    else st
  let st :=
    if mapContains st.cache sha then st
    else { st with cache_order := st.cache_order ++ [sha] }
  { st with cache := mapInsert st.cache sha result }

/-- `PipelineViewState::invalidate_cache`. -/
def PipelineViewState.invalidate_cache (st : PipelineViewState) (sha : String) :
    PipelineViewState :=
  { st with cache := mapRemove st.cache sha,
            cache_order := st.cache_order.filter fun s => s != sha }

/-- `PipelineViewState::set_pipeline`. -/
def PipelineViewState.set_pipeline (st : PipelineViewState) (sha : Option String)
    (details : Option PipelineDetails) : PipelineViewState :=
  let st :=
    match sha with
    | some s =>
        let cached :=
          match details with
          | some d => CachedPipeline.found d
          | none => CachedPipeline.notFound
        st.cache_result s cached
    | none => st
  let same_sha := st.current_sha == sha
  let st := { st with current_sha := sha, details := details }
  let st :=
    if !same_sha then
      { st with selected_stage := 0, selected_job := 0, scroll_x := 0, scroll_y := 0 }
    else st
  { st with error := none, loading := false }

/-- `PipelineViewState::set_error`. -/
def PipelineViewState.set_error (st : PipelineViewState) (sha : Option String)
    (err : String) : PipelineViewState :=
  let st :=
    match sha with
    | some s => st.cache_result s (CachedPipeline.error err)
    | none => st
  { st with current_sha := sha, error := some err, loading := false }

/-- `PipelineViewState::select_next_stage`. -/
def PipelineViewState.select_next_stage (st : PipelineViewState) : PipelineViewState :=
  match st.details with
  | some details =>
      if st.selected_stage < details.stages.length - 1 then
        { st with selected_stage := st.selected_stage + 1, selected_job := 0 }
      else st
  | none => st

/-- `PipelineViewState::select_prev_stage`. -/
def PipelineViewState.select_prev_stage (st : PipelineViewState) : PipelineViewState :=
  if st.selected_stage > 0 then
    { st with selected_stage := st.selected_stage - 1, selected_job := 0 }
  else st

/-- `PipelineViewState::select_next_job`. -/
def PipelineViewState.select_next_job (st : PipelineViewState) : PipelineViewState :=
  match st.details with
  | some details =>
      match details.stages.get? st.selected_stage with
      | some stage =>
          if st.selected_job < stage.jobs.length - 1 then
            { st with selected_job := st.selected_job + 1 }
          else st
      | none => st
  | none => st

/-- `PipelineViewState::select_prev_job`. -/
def PipelineViewState.select_prev_job (st : PipelineViewState) : PipelineViewState :=
  if st.selected_job > 0 then { st with selected_job := st.selected_job - 1 } else st

/-! ## Log parser (`src/widgets/pipeline_view.rs`)

String indexing in the Rust source is byte-based; the logs it is applied to are
ASCII, where byte positions and character positions coincide, so the embedding
works on character lists. -/

/-- Character-level split on a separator (Rust `str::split(sep)` semantics:
the empty string yields one empty segment). -/
def splitCharAux (sep : Char) : List Char → List (List Char)
  | [] => [[]]
  | c :: rest =>
      match splitCharAux sep rest with
      | [] => [[c]]
      | h :: t => if c = sep then [] :: h :: t else (c :: h) :: t

/-- Rust `str::lines()`: split on newline, drop a final empty segment produced
by a trailing newline, strip one trailing carriage return per line. -/
def rustLines (s : String) : List String :=
  if s = "" then []
  else
    let parts := (splitCharAux '\n' s.toList).map String.mk
    let parts := if parts.getLast? = some "" then parts.dropLast else parts
    parts.map fun line =>
      if line.toList.getLast? = some '\r' then String.mk line.toList.dropLast else line

/-- Rust `trim_end_matches('\r')`: drop all trailing carriage returns. -/
def trimEndCr (s : String) : String :=
  String.mk (s.toList.reverse.dropWhile (fun c => c = '\r')).reverse

/-- Index of the first occurrence of `pat` in `cs` (Rust `str::find`). -/
def findSub? (pat cs : List Char) : Option Nat :=
  match cs with
  | [] => if pat.isPrefixOf ([] : List Char) then some 0 else none
  | _ :: rest =>
      if pat.isPrefixOf cs then some 0 else (findSub? pat rest).map (· + 1)

/-- Rust `.replace("\x1b[0K", "")`: remove every occurrence of the
clear-to-end-of-line escape, scanning left to right. -/
def strip0K : List Char → List Char
  | '\x1b' :: '[' :: '0' :: 'K' :: rest => strip0K rest
  | c :: rest => c :: strip0K rest
  | [] => []

/-- Rust `.replace("\x1b[0;m", "")`. -/
def strip0Sm : List Char → List Char
  | '\x1b' :: '[' :: '0' :: ';' :: 'm' :: rest => strip0Sm rest
  | c :: rest => c :: strip0Sm rest
  | [] => []

/-- Rust `str::trim()` on ASCII text: drop leading and trailing whitespace. -/
def trimChars (s : String) : String :=
  String.mk ((s.toList.dropWhile Char.isWhitespace).reverse.dropWhile
    Char.isWhitespace).reverse

/-- `strip_log_prefix` from `src/widgets/pipeline_view.rs`. -/
def strip_log_prefix (line : String) : Option String × String :=
  let cs := line.toList
  if cs.length > 32 ∧ cs.get? 4 = some '-' ∧ cs.get? 10 = some 'T' then
    let ts := String.mk ((cs.drop 11).take 8)
    match (cs.drop 28).findIdx? (fun c => c = ' ') with
    | some pos => (some ts, String.mk ((cs.drop 28).drop (pos + 1)))
    | none => (some ts, line)
  else (none, line)

/-- Rust `str::splitn(3, sep)`. -/
def splitn3 (s : String) (sep : Char) : List String :=
  let ps := splitCharAux sep s.toList
  if ps.length ≤ 3 then ps.map String.mk
  else (ps.take 2).map String.mk ++ [String.mk (List.intercalate [sep] (ps.drop 2))]

/-- Decimal digit-string to number (the core of Rust's `u64` parsing). -/
def digitsToNat? (cs : List Char) : Option Nat :=
  if cs ≠ [] ∧ cs.all Char.isDigit then
    some (cs.foldl (fun a c => a * 10 + (c.toNat - 48)) 0)
  else none

/-- Rust `str::parse::<u64>().ok()`: optional leading `+`, decimal digits,
value below `2^64`. -/
def parseU64 (s : String) : Option Nat :=
  let cs := s.toList
  let body := if cs.head? = some '+' then cs.tail else cs
  match digitsToNat? body with
  | some n => if n < 2 ^ 64 then some n else none
  | none => none

/-- `extract_section_timestamp` from `src/widgets/pipeline_view.rs`. -/
def extract_section_timestamp (marker : String) : Option Nat :=
  let parts := splitn3 marker ':'
  if parts.length ≥ 2 then parseU64 (parts.getD 1 "") else none

/-- `format_duration` from `src/widgets/pipeline_view.rs` (`{:02}:{:02}`). -/
def pad2 (n : Nat) : String :=
  if n < 10 then "0" ++ toString n else toString n

/-- `format_duration`: minutes and seconds, each zero-padded to two digits. -/
def format_duration (seconds : Nat) : String :=
  pad2 (seconds / 60) ++ ":" ++ pad2 (seconds % 60)

/-- `strip_ansi_for_empty_check` from `src/widgets/pipeline_view.rs`:
copy characters, but after an ESC skip everything up to and including the
first `m`.  The Rust inner `while`-peek loop is flattened into the `inEsc`
state so the recursion is structural. -/
def stripAnsiGo (inEsc : Bool) : List Char → List Char
  | [] => []
  | c :: rest =>
      if inEsc then
        if c = 'm' then stripAnsiGo false rest else stripAnsiGo true rest
      else if c = '\x1b' then stripAnsiGo true rest
      else c :: stripAnsiGo false rest

/-- `strip_ansi_for_empty_check`, string-level. -/
def strip_ansi_for_empty_check (s : String) : String :=
  String.mk (stripAnsiGo false s.toList)

/-- The `;`-split of an SGR code (Rust `code.split(';').collect()`). -/
def splitSemi (code : String) : List String :=
  (splitCharAux ';' code.toList).map String.mk

/-- `apply_ansi_code` from `src/widgets/pipeline_view.rs`: the Rust
`match parts.as_slice()` over literal slice patterns, written as the
equivalent first-match chain of equality tests on the `;`-split code. -/
def apply_ansi_code (code : String) : Style :=
  let parts := splitSemi code
  if parts = ["0"] then Style.default
  else if parts = [""] then Style.default
  else if parts = ["0", ""] then Style.default
  else if parts = ["1"] then { fg := none, bold := true }
  else if parts = ["31"] then { fg := some ⟨191, 97, 106⟩, bold := false }
  else if parts = ["31", "1"] then { fg := some ⟨191, 97, 106⟩, bold := true }
  else if parts = ["32"] then { fg := some ⟨163, 190, 140⟩, bold := false }
  else if parts = ["32", "1"] then { fg := some ⟨163, 190, 140⟩, bold := true }
  else if parts = ["33"] then { fg := some ⟨235, 203, 139⟩, bold := false }
  else if parts = ["0", "33"] then { fg := some ⟨235, 203, 139⟩, bold := false }
  else if parts = ["33", "1"] then { fg := some ⟨235, 203, 139⟩, bold := true }
  else if parts = ["34"] then { fg := some ⟨94, 129, 172⟩, bold := false }
  else if parts = ["34", "1"] then { fg := some ⟨94, 129, 172⟩, bold := true }
  else if parts = ["35"] then { fg := some ⟨180, 142, 173⟩, bold := false }
  else if parts = ["35", "1"] then { fg := some ⟨180, 142, 173⟩, bold := true }
  else if parts = ["36"] then { fg := some ⟨136, 192, 208⟩, bold := false }
  else if parts = ["36", "1"] then { fg := some ⟨136, 192, 208⟩, bold := true }
  else if parts = ["37"] then { fg := some ⟨216, 222, 233⟩, bold := false }
  else if parts = ["37", "1"] then { fg := some ⟨216, 222, 233⟩, bold := false }
  else if parts = ["90"] then { fg := some ⟨76, 86, 106⟩, bold := false }
  else Style.default

/-- The scanner of `parse_ansi_to_styled`.  `mode = some acc` means the
scanner is inside an `ESC [` code with `acc` the digits/`;` read so far; the
pending `cur_text` is flushed with the old style when the code ends, exactly
as the Rust loop does.  The Rust inner peek-loop is flattened into the mode so
the recursion is structural in the character list. -/
def ansiGo : Option (List Char) → Style → List Char → List Char → List (String × Style)
  | _, cur_style, cur_text, [] =>
      if cur_text = [] then [] else [(String.mk cur_text, cur_style)]
  | some acc, cur_style, cur_text, '\x1b' :: '[' :: rest2 =>
      (if cur_text = [] then [] else [(String.mk cur_text, cur_style)]) ++
        ansiGo (some []) (apply_ansi_code (String.mk acc)) [] rest2
  | some acc, cur_style, cur_text, '\x1b' :: rest =>
      (if cur_text = [] then [] else [(String.mk cur_text, cur_style)]) ++
        ansiGo none (apply_ansi_code (String.mk acc)) [] rest
  | some acc, cur_style, cur_text, c :: rest =>
      if c.isDigit || c = ';' then ansiGo (some (acc ++ [c])) cur_style cur_text rest
      else
        (if cur_text = [] then [] else [(String.mk cur_text, cur_style)]) ++
          (if c = 'm' then ansiGo none (apply_ansi_code (String.mk acc)) [] rest
           else ansiGo none (apply_ansi_code (String.mk acc)) [c] rest)
  | none, cur_style, cur_text, '\x1b' :: '[' :: rest2 =>
      ansiGo (some []) cur_style cur_text rest2
  | none, cur_style, cur_text, '\x1b' :: rest =>
      ansiGo none cur_style cur_text rest
  | none, cur_style, cur_text, c :: rest =>
      ansiGo none cur_style (cur_text ++ [c]) rest

/-- `parse_ansi_to_styled` from `src/widgets/pipeline_view.rs`. -/
def parse_ansi_to_styled (line : String) : List (String × Style) :=
  let segments := ansiGo none Style.default [] line.toList
  if segments = [] then [("", Style.default)] else segments

/-- `HashMap::insert` on the section-start map of `parse_gitlab_log`. -/
def sectionInsert (m : List (String × Nat)) (k : String) (v : Nat) :
    List (String × Nat) :=
  if m.any (fun p => p.1 == k) then m.map fun p => if p.1 == k then (k, v) else p
  else m ++ [(k, v)]

/-- `HashMap::get` on the section-start map. -/
def sectionGet (m : List (String × Nat)) (k : String) : Option Nat :=
  (m.find? fun p => p.1 == k).map Prod.snd

/-- Attach a duration to the last emitted line (`result.last_mut()`). -/
def setLastDuration (ls : List LogLine) (d : String) : List LogLine :=
  match ls.getLast? with
  | some last => ls.dropLast ++ [{ last with duration := some d }]
  | none => ls

/-- The pattern `"section_end:"`. -/
def sectionEndPat : List Char := "section_end:".toList

/-- The pattern `"section_start:"`. -/
def sectionStartPat : List Char := "section_start:".toList

/-- One iteration of the `parse_gitlab_log` line loop over the state
`(result, section_starts, pending_duration)`. -/
def logStep (st : List LogLine × List (String × Nat) × Option String)
    (raw_line : String) : List LogLine × List (String × Nat) × Option String :=
  let result := st.1
  let section_starts := st.2.1
  let pending_duration := st.2.2
  let line := trimEndCr raw_line
  match findSub? sectionEndPat line.toList with
  | some start_pos =>
      let marker := String.mk (line.toList.drop (start_pos + 12))
      let pending_duration :=
        match extract_section_timestamp marker with
        | some end_ts =>
            let section_name := (splitn3 marker ':').getD 2 ""
            match sectionGet section_starts section_name with
            | some start_ts => some (format_duration (end_ts - start_ts))
            | none => pending_duration
        | none => pending_duration
      let after_marker := (findSub? ['\n'] (line.toList.drop start_pos)).map
        fun p => String.mk (line.toList.drop (start_pos + p))
      let result :=
        match after_marker with
        | some rest =>
            if trimChars rest ≠ "" ∧ findSub? sectionStartPat rest.toList = none then
              let ts := ( strip_log_prefix line).1
              let cleaned := String.mk (strip0K rest.toList)
              let content_cleaned := strip_ansi_for_empty_check cleaned
              if trimChars content_cleaned ≠ "" then
                result ++ [{ timestamp := ts, styled := parse_ansi_to_styled cleaned,
                             content := cleaned, duration := none }]
              else result
            else result
        | none => result
      (result, section_starts, pending_duration)
  | none =>
    match findSub? sectionStartPat line.toList with
    | some start_pos =>
        let marker := String.mk (line.toList.drop (start_pos + 14))
        let section_starts :=
          match extract_section_timestamp marker with
          | some start_ts =>
              let section_name := (splitn3 marker ':').getD 2 ""
              let section_name := trimEndCr section_name
              sectionInsert section_starts section_name start_ts
          | none => section_starts
        (result, section_starts, pending_duration)
    | none =>
        let tb := strip_log_prefix line
        let cleaned := String.mk (strip0Sm (strip0K tb.2.toList))
        let content_cleaned := strip_ansi_for_empty_check cleaned
        if trimChars content_cleaned = "" then (result, section_starts, pending_duration)
        else
          match pending_duration with
          | some d =>
              if result = [] then
                (result ++ [{ timestamp := tb.1.map id, styled := parse_ansi_to_styled cleaned,
                              content := cleaned, duration := some d }],
                 section_starts, none)
              else (setLastDuration result d, section_starts, none)
          | none =>
              (result ++ [{ timestamp := tb.1.map id, styled := parse_ansi_to_styled cleaned,
                            content := cleaned, duration := none }],
               section_starts, none)

/-- `parse_gitlab_log` from `src/widgets/pipeline_view.rs`. -/
def parse_gitlab_log (raw : String) : List LogLine :=
  ((rustLines raw).foldl logStep ([], [], none)).1

/-! ## Layout engine (`src/widgets/pipeline_view.rs`)

`name.len()` in Rust counts bytes; stage and job names are ASCII in practice
and are modelled by `String.length`. -/

/-- `calculate_stage_width` from `src/widgets/pipeline_view.rs`. -/
def calculate_stage_width (stage : Stage) : Nat :=
  let header_width := stage.name.length + 8
  let max_job_width := ((stage.jobs.map fun j => j.name.length + 5).max?).getD 0
  max (max header_width max_job_width) MIN_STAGE_WIDTH

/-- The greedy inner packing loop appearing verbatim in both
`PipelineViewState::row_count` and case 3 of `calculate_layout`: keep taking
stages while `row_width + connector + min(ideal, row_avail)` fits `row_avail`.
Returns how many stages after the first are taken. -/
def rowFitAux (row_avail : Nat) (row_width : Nat) : List Nat → Nat
  | [] => 0
  | w0 :: rest =>
      let w := min w0 row_avail
      if row_width + CONNECTOR_WIDTH + w > row_avail then 0
      else 1 + rowFitAux row_avail (row_width + CONNECTOR_WIDTH + w) rest

/-- Number of stages packed into the current row; the stage at `row_start` is
always taken (the loop's overflow test is skipped for `i == row_start`). -/
def takeRowLen (row_avail : Nat) : List Nat → Nat
  | [] => 0
  | w0 :: rest => 1 + rowFitAux row_avail (min w0 row_avail) rest

/-- The `while row_start < num_stages` loop of `row_count`, counting rows.
Each iteration consumes at least one stage (`k ≥ 1`), so running the loop with
`ws.length` fuel is exact; the fuel keeps the recursion structural and hence
kernel-evaluable.  The fuel-exhausted arm is unreachable. -/
def rowCountGo (fuel : Nat) (available_width : Nat) (ws : List Nat) (rows : Nat) : Nat :=
  match fuel, ws with
  | _, [] => rows
  | 0, _ :: _ => rows
  | fuel2 + 1, w0 :: rest =>
      let wrap_margin : Nat := if rows > 0 then 3 else 0
      let row_avail := available_width - wrap_margin
      let k := max (takeRowLen row_avail (w0 :: rest)) 1
      rowCountGo fuel2 available_width ((w0 :: rest).drop k) (rows + 1)

/-- The `while` loop of `row_count` run to completion. -/
def rowCountLoop (available_width : Nat) (ws : List Nat) (rows : Nat) : Nat :=
  rowCountGo ws.length available_width ws rows

/-- `PipelineViewState::row_count` from `src/widgets/pipeline_view.rs`. -/
def PipelineViewState.row_count (st : PipelineViewState) (available_width : Nat) : Nat :=
  match st.details with
  | none => 0
  | some d =>
      if d.stages.isEmpty then 0
      else
        let num_stages := d.stages.length
        let ideal_widths := d.stages.map calculate_stage_width
        let connector_total := (num_stages - 1) * CONNECTOR_WIDTH
        let total_ideal := ideal_widths.sum + connector_total
        if total_ideal ≤ available_width then 1
        else
          let avail_for_stages := available_width - connector_total
          let sum_ideal := ideal_widths.sum
          let shrunk_total :=
            (ideal_widths.map fun w =>
              max (w * avail_for_stages / sum_ideal) MIN_STAGE_WIDTH).sum + connector_total
          if sum_ideal > 0 ∧ avail_for_stages ≥ num_stages * MIN_STAGE_WIDTH ∧
              shrunk_total ≤ available_width then 1
          else rowCountLoop available_width ideal_widths 0

/-- `ratatui::layout::Rect` (the fields this code reads). -/
structure Rect where
  x : Nat
  y : Nat
  width : Nat
  height : Nat
deriving DecidableEq, Repr

/-- `StageLayout` from `src/widgets/pipeline_view.rs`. -/
structure StageLayout where
  x : Nat
  y : Nat
  width : Nat
  height : Nat
deriving DecidableEq, Repr

/-- `LayoutInfo` from `src/widgets/pipeline_view.rs`. -/
structure LayoutInfo where
  stages : List StageLayout
  total_height : Nat
deriving DecidableEq, Repr

/-- Place one row of stage boxes left to right at height `y`
(`x += w; if i < n-1 x += CONNECTOR_WIDTH`). -/
def placeRow (widths : List Nat) (x y h : Nat) : List StageLayout :=
  match widths with
  | [] => []
  | w :: rest =>
      ⟨x, y, w, h⟩ ::
        placeRow rest (x + w + if rest.isEmpty then 0 else CONNECTOR_WIDTH) y h

/-- Case 3 of `calculate_layout` (multi-row wrap): one recursive call per row.
`stages` and `ideal` are the suffixes from `row_start`; returns the produced
layouts and the final `y` cursor.  As in `rowCountGo`, each row consumes at
least one stage, so `stages.length` fuel runs the loop to completion and the
fuel-exhausted arm is unreachable. -/
def wrapGo (fuel : Nat) (stages : List Stage) (ideal : List Nat) (areaX width : Nat)
    (row_index y : Nat) : List StageLayout × Nat :=
  match fuel, stages with
  | _, [] => ([], y)
  | 0, _ :: _ => ([], y)
  | fuel2 + 1, s0 :: srest =>
      let wrap_margin : Nat := if row_index > 0 then 3 else 0
      let row_avail := width - wrap_margin
      let k := max (takeRowLen row_avail ideal) 1
      let row_stages := (s0 :: srest).take k
      let row_widths0 := (ideal.take k).map fun w => min w row_avail
      let row_conn := (row_widths0.length - 1) * CONNECTOR_WIDTH
      let row_total := row_widths0.sum + row_conn
      let row_widths :=
        if row_total > row_avail then
          let avail := row_avail - row_conn
          let sum_w := row_widths0.sum
          if sum_w > 0 then
            row_widths0.map fun w => max (w * avail / sum_w) MIN_STAGE_WIDTH
          else row_widths0
        else row_widths0
      let actual_total := row_widths.sum + row_conn
      let left_pad :=
        if row_index > 0 then wrap_margin + (row_avail - actual_total) / 2
        else (width - actual_total) / 2
      let max_jobs_in_row := ((row_stages.map fun s => s.jobs.length).max?).getD 0
      let row_height := max_jobs_in_row + 2
      let placed := placeRow row_widths (areaX + left_pad) y row_height
      let rest := (s0 :: srest).drop k
      let y2 := y + row_height + (if rest.isEmpty then 0 else 1)
      let recres := wrapGo fuel2 rest (ideal.drop k) areaX width (row_index + 1) y2
      (placed ++ recres.1, recres.2)

/-- The wrap loop of `calculate_layout` run to completion. -/
def wrapLoop (stages : List Stage) (ideal : List Nat) (areaX width : Nat)
    (row_index y : Nat) : List StageLayout × Nat :=
  wrapGo stages.length stages ideal areaX width row_index y

/-- The multi-row wrap strategy of `calculate_layout` as a whole
(`total_height = y.saturating_sub(area.y)`). -/
def wrapLayout (details : PipelineDetails) (area : Rect) : LayoutInfo :=
  let ideal_widths := details.stages.map calculate_stage_width
  let wl := wrapLoop details.stages ideal_widths area.x area.width 0 area.y
  { stages := wl.1, total_height := wl.2 - area.y }

/-- `calculate_layout` from `src/widgets/pipeline_view.rs`. -/
def calculate_layout (details : PipelineDetails) (area0 : Rect) : LayoutInfo :=
  let num_stages := details.stages.length
  if num_stages = 0 then { stages := [], total_height := 0 }
  else
    let area : Rect := { area0 with y := area0.y + 1, height := area0.height - 1 }
    let ideal_widths := details.stages.map calculate_stage_width
    let connector_total := (num_stages - 1) * CONNECTOR_WIDTH
    let total_ideal := ideal_widths.sum + connector_total
    if total_ideal ≤ area.width then
      let max_jobs := ((details.stages.map fun s => s.jobs.length).max?).getD 0
      let row_height := max_jobs + 2
      let left_pad := (area.width - total_ideal) / 2
      { stages := placeRow ideal_widths (area.x + left_pad) area.y row_height,
        total_height := row_height }
    else
      let avail_for_stages := area.width - connector_total
      let sum_ideal := ideal_widths.sum
      let shrunk := ideal_widths.map fun w =>
        max (w * avail_for_stages / sum_ideal) MIN_STAGE_WIDTH
      let shrunk_total := shrunk.sum + connector_total
      if sum_ideal > 0 ∧ avail_for_stages ≥ num_stages * MIN_STAGE_WIDTH ∧
          shrunk_total ≤ area.width then
        let max_jobs := ((details.stages.map fun s => s.jobs.length).max?).getD 0
        let row_height := max_jobs + 2
        let left_pad := (area.width - shrunk_total) / 2
        { stages := placeRow shrunk (area.x + left_pad) area.y row_height,
          total_height := row_height }
      else wrapLayout details area

/-! ## API client (`src/gitlab/mod.rs`) -/

/-- `urlencoded` from `src/gitlab/mod.rs`: `s.replace('/', "%2F")` — a
char-pattern replace, i.e. each `/` becomes `%2F`. -/
def urlencoded (s : String) : String :=
  String.mk (s.toList.flatMap fun c => if c = '/' then "%2F".toList else [c])

/-- Abstract remote service: the responses the two GET endpoints would give,
keyed by the full request URL. -/
structure ApiWorld where
  pipelines : String → Except String (List Pipeline)
  jobs : String → Except String (List Job)

/-- The URL built by `get_pipeline_for_commit`. -/
def pipelineUrl (base project sha : String) : String :=
  base ++ "/api/v4/projects/" ++ urlencoded project ++ "/pipelines?sha=" ++ sha

/-- The URL built by `get_pipeline_jobs`. -/
def jobsUrl (base project : String) (pipeline_id : Nat) : String :=
  base ++ "/api/v4/projects/" ++ urlencoded project ++ "/pipelines/" ++
    toString pipeline_id ++ "/jobs?per_page=100"

/-- `GitLabClient::get_pipeline_for_commit` (`pipelines.into_iter().next()`).
Alongside the result, the issued request URLs are collected so that "no jobs
request was made" is an observable statement. -/
def get_pipeline_for_commit (w : ApiWorld) (base project sha : String) :
    Except String (Option Pipeline) × List String :=
  let url := pipelineUrl base project sha
  ((w.pipelines url).map List.head?, [url])

/-- `GitLabClient::get_pipeline_jobs` with its issued request URL. -/
def get_pipeline_jobs (w : ApiWorld) (base project : String) (pipeline_id : Nat) :
    Except String (List Job) × List String :=
  let url := jobsUrl base project pipeline_id
  (w.jobs url, [url])

/-- `GitLabClient::get_pipeline_details` from `src/gitlab/mod.rs`. -/
def get_pipeline_details (w : ApiWorld) (base project sha : String) :
    Except String (Option PipelineDetails) × List String :=
  let r1 := get_pipeline_for_commit w base project sha
  match r1.1 with
  | .error e => (.error e, r1.2)
  | .ok none => (.ok none, r1.2)
  | .ok (some p) =>
      let r2 := get_pipeline_jobs w base project p.id
      match r2.1 with
      | .error e => (.error e, r1.2 ++ r2.2)
      | .ok jobs => (.ok (some (PipelineDetails.from_jobs p jobs)), r1.2 ++ r2.2)

/-! ## Helper lemmas for the grouping loop of `from_jobs` (claim C1) -/

/-- With distinct stage names, `insertJob` either updates the unique matching
stage in place or appends a new one. -/
theorem insertJob_eq (j : Job) :
    ∀ (acc : List Stage), (acc.map Stage.name).Nodup →
    insertJob acc j =
      if j.stage ∈ acc.map Stage.name then
        acc.map fun s => if s.name = j.stage then ⟨s.name, s.jobs ++ [j]⟩ else s
      else acc ++ [⟨j.stage, [j]⟩] := by
  intro acc
  induction acc with
  | nil => intro _; simp [insertJob]
  | cons s rest ih =>
      intro hnod
      simp only [List.map_cons, List.nodup_cons] at hnod
      obtain ⟨hs, hrest⟩ := hnod
      simp only [insertJob]
      by_cases h : s.name = j.stage
      · have hmem : j.stage ∈ (s :: rest).map Stage.name := by
          simp [h.symm]
        rw [if_pos hmem, if_pos h]
        simp only [List.map_cons, if_pos h]
        have hid : rest.map (fun t => if t.name = j.stage then
            (⟨t.name, t.jobs ++ [j]⟩ : Stage) else t) = rest.map id := by
          apply List.map_congr_left
          intro t ht
          have hne : t.name ≠ j.stage := by
            intro hc
            exact hs (h ▸ hc ▸ List.mem_map_of_mem Stage.name ht)
          simp [hne]
        rw [hid, List.map_id]
      · have hmem_iff : j.stage ∈ (s :: rest).map Stage.name ↔
            j.stage ∈ rest.map Stage.name := by
          simp only [List.map_cons, List.mem_cons]
          constructor
          · rintro (hc | hc)
            · exact absurd hc.symm h
            · exact hc
          · exact Or.inr
        rw [if_neg h, ih hrest]
        by_cases hm : j.stage ∈ rest.map Stage.name
        · rw [if_pos hm, if_pos (hmem_iff.mpr hm)]
          simp only [List.map_cons, if_neg h]
        · rw [if_neg hm, if_neg (fun hc => hm (hmem_iff.mp hc))]
          simp

/-- Invariant carried through the grouping fold: the stages built from the
already-consumed prefix `pre` hold exactly the prefix's jobs grouped by stage
name, with distinct stage names, every consumed stage name present, and no
empty stage. -/
def GroupInv (pre : List Job) (acc : List Stage) : Prop :=
  (∀ s ∈ acc, s.jobs = pre.filter fun x => x.stage == s.name) ∧
  (acc.map Stage.name).Nodup ∧
  (∀ x ∈ pre, x.stage ∈ acc.map Stage.name) ∧
  (∀ s ∈ acc, s.jobs ≠ [])

theorem groupInv_step (pre : List Job) (j : Job) (acc : List Stage)
    (h : GroupInv pre acc) : GroupInv (pre ++ [j]) (insertJob acc j) := by
  obtain ⟨h1, h2, h3, h4⟩ := h
  rw [insertJob_eq j acc h2]
  by_cases hm : j.stage ∈ acc.map Stage.name
  · rw [if_pos hm]
    refine ⟨?_, ?_, ?_, ?_⟩
    · intro s hsmem
      rw [List.mem_map] at hsmem
      obtain ⟨t, ht, hts⟩ := hsmem
      by_cases heq : t.name = j.stage
      · rw [if_pos heq] at hts
        subst hts
        simp only [List.filter_append]
        rw [← h1 t ht]
        simp [heq]
      · rw [if_neg heq] at hts
        subst hts
        simp only [List.filter_append]
        rw [← h1 t ht]
        have : List.filter (fun x => x.stage == t.name) [j] = [] := by
          simp only [List.filter]
          have : (j.stage == t.name) = false := by
            simp only [beq_eq_false_iff_ne]
            exact fun hc => heq hc.symm
          simp [this]
        simp [this]
    · have : (acc.map fun s => if s.name = j.stage then
          (⟨s.name, s.jobs ++ [j]⟩ : Stage) else s).map Stage.name =
          acc.map Stage.name := by
        rw [List.map_map]
        apply List.map_congr_left
        intro t _
        by_cases heq : t.name = j.stage <;> simp [heq]
      rw [this]
      exact h2
    · intro x hx
      have hnames : (acc.map fun s => if s.name = j.stage then
          (⟨s.name, s.jobs ++ [j]⟩ : Stage) else s).map Stage.name =
          acc.map Stage.name := by
        rw [List.map_map]
        apply List.map_congr_left
        intro t _
        by_cases heq : t.name = j.stage <;> simp [heq]
      rw [hnames]
      rcases List.mem_append.mp hx with hx | hx
      · exact h3 x hx
      · simp only [List.mem_singleton] at hx
        subst hx
        exact hm
    · intro s hsmem
      rw [List.mem_map] at hsmem
      obtain ⟨t, ht, hts⟩ := hsmem
      by_cases heq : t.name = j.stage
      · rw [if_pos heq] at hts
        subst hts
        simp
      · rw [if_neg heq] at hts
        subst hts
        exact h4 t ht
  · rw [if_neg hm]
    refine ⟨?_, ?_, ?_, ?_⟩
    · intro s hsmem
      rcases List.mem_append.mp hsmem with hsm | hsm
      · have hne : s.name ≠ j.stage := by
          intro hc
          exact hm (hc ▸ List.mem_map_of_mem Stage.name hsm)
        simp only [List.filter_append]
        rw [← h1 s hsm]
        have : List.filter (fun x => x.stage == s.name) [j] = [] := by
          simp only [List.filter]
          have : (j.stage == s.name) = false := by
            simp only [beq_eq_false_iff_ne]
            exact fun hc => hne hc.symm
          simp [this]
        simp [this]
      · simp only [List.mem_singleton] at hsm
        subst hsm
        simp only [List.filter_append]
        have hpre : List.filter (fun x => x.stage == Stage.name ⟨j.stage, [j]⟩) pre = [] := by
          rw [List.filter_eq_nil_iff]
          intro x hx hc
          rw [beq_iff_eq] at hc
          have hc2 : x.stage = j.stage := hc
          apply hm
          rw [← hc2]
          exact h3 x hx
        rw [hpre]
        simp [List.filter]
    · rw [List.map_append, List.nodup_append]
      refine ⟨h2, by simp, ?_⟩
      intro a ha hb
      simp only [List.map_cons, List.map_nil, List.mem_singleton] at hb
      subst hb
      exact hm ha
    · intro x hx
      rw [List.map_append]
      rcases List.mem_append.mp hx with hx | hx
      · exact List.mem_append_left _ (h3 x hx)
      · simp only [List.mem_singleton] at hx
        subst hx
        apply List.mem_append_right
        simp
    · intro s hsmem
      rcases List.mem_append.mp hsmem with hsm | hsm
      · exact h4 s hsm
      · simp only [List.mem_singleton] at hsm
        subst hsm
        simp

theorem groupInv_foldl :
    ∀ (jobs pre : List Job) (acc : List Stage), GroupInv pre acc →
      GroupInv (pre ++ jobs) (jobs.foldl insertJob acc) := by
  intro jobs
  induction jobs with
  | nil => intro pre acc h; simpa using h
  | cons j rest ih =>
      intro pre acc h
      have step := groupInv_step pre j acc h
      have := ih (pre ++ [j]) (insertJob acc j) step
      simpa [List.append_assoc] using this

/-- `insertJob` adds exactly the new job to the flattened job list. -/
theorem insertJob_flat_perm (j : Job) :
    ∀ (acc : List Stage),
      ((insertJob acc j).flatMap Stage.jobs).Perm (acc.flatMap Stage.jobs ++ [j]) := by
  intro acc
  induction acc with
  | nil => simp [insertJob]
  | cons s rest ih =>
      simp only [insertJob]
      by_cases h : s.name = j.stage
      · rw [if_pos h]
        simp only [List.flatMap_cons]
        rw [List.append_assoc, List.append_assoc]
        apply List.Perm.append_left
        exact List.perm_append_comm
      · rw [if_neg h]
        simp only [List.flatMap_cons]
        rw [List.append_assoc]
        exact List.Perm.append_left _ ih

theorem foldl_flat_perm :
    ∀ (jobs : List Job) (acc : List Stage),
      ((jobs.foldl insertJob acc).flatMap Stage.jobs).Perm
        (acc.flatMap Stage.jobs ++ jobs) := by
  intro jobs
  induction jobs with
  | nil => intro acc; simp
  | cons j rest ih =>
      intro acc
      rw [List.foldl_cons]
      refine (ih (insertJob acc j)).trans ?_
      have h2 := (insertJob_flat_perm j acc).append_right rest
      simpa [List.append_assoc] using h2

/-- The jobs grouped by the whole fold satisfy the grouping invariant. -/
theorem groupInv_final (jobs : List Job) :
    GroupInv jobs (jobs.foldl insertJob []) := by
  have h0 : GroupInv [] [] := by
    refine ⟨?_, ?_, ?_, ?_⟩ <;> simp [GroupInv]
  simpa using groupInv_foldl jobs [] [] h0

/-- C1: for every pipeline and flat job list, `PipelineDetails::from_jobs`
produces stages that (i) together contain every input job exactly once (the
concatenation of their job lists is a permutation of the input), (ii) group
jobs by stage name in input order (each stage's jobs are exactly the input
filtered to its name), (iii) carry pairwise-distinct stage names, (iv) are
sorted by the minimum job id per stage, and (v) when the input job ids are
distinct the stage order is strictly increasing in — hence fully determined
by — the minimum job id.  The result is a pure function of the input, so it is
deterministic. -/
theorem C1_from_jobs_grouping (p : Pipeline) (jobs : List Job) :
    (((PipelineDetails.from_jobs p jobs).stages.flatMap Stage.jobs).Perm jobs) ∧
    (∀ s ∈ (PipelineDetails.from_jobs p jobs).stages,
        s.jobs = jobs.filter fun x => x.stage == s.name) ∧
    (((PipelineDetails.from_jobs p jobs).stages.map Stage.name).Nodup) ∧
    ((PipelineDetails.from_jobs p jobs).stages.Pairwise
        fun a b => stageMinKey a ≤ stageMinKey b) ∧
    ((jobs.map Job.id).Nodup →
      (PipelineDetails.from_jobs p jobs).stages.Pairwise
        fun a b => stageMinKey a < stageMinKey b) := by
  have hinv := groupInv_final jobs
  obtain ⟨hfil, hnod, hcov, hne⟩ := hinv
  have hst : (PipelineDetails.from_jobs p jobs).stages =
      (jobs.foldl insertJob []).mergeSort
        (fun a b => decide (stageMinKey a ≤ stageMinKey b)) := rfl
  have hperm0 : ((jobs.foldl insertJob []).mergeSort
      (fun a b => decide (stageMinKey a ≤ stageMinKey b))).Perm
      (jobs.foldl insertJob []) := List.mergeSort_perm _ _
  have hflat : (((PipelineDetails.from_jobs p jobs).stages.flatMap Stage.jobs).Perm jobs) := by
    rw [hst]
    refine (List.Perm.flatMap_right Stage.jobs hperm0).trans ?_
    simpa using foldl_flat_perm jobs []
  have hmem_iff : ∀ s, s ∈ (PipelineDetails.from_jobs p jobs).stages ↔
      s ∈ jobs.foldl insertJob [] := by
    intro s
    rw [hst]
    exact hperm0.mem_iff
  have hfil' : ∀ s ∈ (PipelineDetails.from_jobs p jobs).stages,
      s.jobs = jobs.filter fun x => x.stage == s.name := by
    intro s hs
    exact hfil s ((hmem_iff s).mp hs)
  have hnames : ((PipelineDetails.from_jobs p jobs).stages.map Stage.name).Nodup := by
    rw [hst]
    exact (List.Perm.nodup_iff (hperm0.map Stage.name)).mpr hnod
  have hsorted : (PipelineDetails.from_jobs p jobs).stages.Pairwise
      fun a b => stageMinKey a ≤ stageMinKey b := by
    rw [hst]
    have htrans : ∀ a b c : Stage,
        (decide (stageMinKey a ≤ stageMinKey b)) = true →
        (decide (stageMinKey b ≤ stageMinKey c)) = true →
        (decide (stageMinKey a ≤ stageMinKey c)) = true := by
      intro a b c hab hbc
      simp only [decide_eq_true_eq] at hab hbc ⊢
      omega
    have htotal : ∀ a b : Stage,
        ((decide (stageMinKey a ≤ stageMinKey b)) ||
         (decide (stageMinKey b ≤ stageMinKey a))) = true := by
      intro a b
      simp only [Bool.or_eq_true, decide_eq_true_eq]
      exact Nat.le_total _ _
    have hs := List.sorted_mergeSort htrans htotal (jobs.foldl insertJob [])
    exact hs.imp fun h => by simpa using h
  refine ⟨hflat, hfil', hnames, hsorted, ?_⟩
  intro hids
  have hpne : (PipelineDetails.from_jobs p jobs).stages.Pairwise
      fun a b => a.name ≠ b.name := List.pairwise_map.mp hnames
  have hcomb := hsorted.and hpne
  refine hcomb.imp_of_mem ?_
  intro a b ha hb hab
  obtain ⟨hle, hneq⟩ := hab
  refine Nat.lt_of_le_of_ne hle ?_
  intro hkeyeq
  have hja : ∃ ja ∈ a.jobs, ja.id = stageMinKey a := by
    have hane : a.jobs ≠ [] := hne a ((hmem_iff a).mp ha)
    rcases hmin : (a.jobs.map Job.id).min? with _ | m
    · rw [List.min?_eq_none_iff] at hmin
      simp only [List.map_eq_nil_iff] at hmin
      exact absurd hmin hane
    · have hm2 := List.min?_mem (fun x y => min_choice x y) hmin
      rw [List.mem_map] at hm2
      obtain ⟨ja, hja1, hja2⟩ := hm2
      refine ⟨ja, hja1, ?_⟩
      rw [hja2, stageMinKey, hmin]
      rfl
  have hjb : ∃ jb ∈ b.jobs, jb.id = stageMinKey b := by
    have hbne : b.jobs ≠ [] := hne b ((hmem_iff b).mp hb)
    rcases hmin : (b.jobs.map Job.id).min? with _ | m
    · rw [List.min?_eq_none_iff] at hmin
      simp only [List.map_eq_nil_iff] at hmin
      exact absurd hmin hbne
    · have hm2 := List.min?_mem (fun x y => min_choice x y) hmin
      rw [List.mem_map] at hm2
      obtain ⟨jb, hjb1, hjb2⟩ := hm2
      refine ⟨jb, hjb1, ?_⟩
      rw [hjb2, stageMinKey, hmin]
      rfl
  obtain ⟨ja, hjaa, hjaid⟩ := hja
  obtain ⟨jb, hjbb, hjbid⟩ := hjb
  have hjajobs : ja ∈ jobs ∧ (ja.stage == a.name) = true := by
    have := hfil' a ha
    rw [this] at hjaa
    exact List.mem_filter.mp hjaa
  have hjbjobs : jb ∈ jobs ∧ (jb.stage == b.name) = true := by
    have := hfil' b hb
    rw [this] at hjbb
    exact List.mem_filter.mp hjbb
  have hidseq : ja.id = jb.id := by rw [hjaid, hjbid, hkeyeq]
  have hjaeq : ja = jb := List.inj_on_of_nodup_map hids hjajobs.1 hjbjobs.1 hidseq
  apply hneq
  have h1 := hjajobs.2
  have h2 := hjbjobs.2
  rw [beq_iff_eq] at h1 h2
  rw [← h1, ← h2, hjaeq]

/-! ## Claim C2: stage status derivation -/

/-- One step of the status-flag loop sets each flag from its predicate. -/
theorem statusFlagsStep_eq (flags : Bool × Bool × Bool) (j : Job) :
    statusFlagsStep flags j =
      (flags.1 || (j.status == .failed && !(j.allow_failure.getD false)),
       flags.2.1 || (j.status == .running),
       flags.2.2 || (j.status == .pending || j.status == .waitingForResource ||
         j.status == .preparing)) := by
  obtain ⟨f, r, p⟩ := flags
  cases hst : j.status <;> by_cases haf : j.allow_failure.getD false <;>
    simp [statusFlagsStep, hst, haf]

/-- The flag loop of `Stage::status` computes the three `any` predicates. -/
theorem foldl_flags (jobs : List Job) (f r p : Bool) :
    jobs.foldl statusFlagsStep (f, r, p) =
      (f || jobs.any (fun j => j.status == .failed && !(j.allow_failure.getD false)),
       r || jobs.any (fun j => j.status == .running),
       p || jobs.any (fun j => j.status == .pending || j.status == .waitingForResource ||
         j.status == .preparing)) := by
  induction jobs generalizing f r p with
  | nil => simp
  | cons j rest ih =>
      simp only [List.foldl_cons, List.any_cons]
      rw [statusFlagsStep_eq, ih]
      simp [Bool.or_assoc]

/-- C2 counterexample: the claim says a stage with zero jobs reports `Created`,
but `Stage::status` on an empty job list falls through to the vacuous
all-success check and reports `Success`. -/
theorem C2_empty_stage_cex :
    Stage.status ⟨"build", []⟩ = PipelineStatus.success ∧
    Stage.status ⟨"build", []⟩ ≠ PipelineStatus.created := by
  constructor
  · rfl
  · intro h
    exact PipelineStatus.noConfusion h

/-- C2 (amended): `Stage::status` is `Failed` if some job failed without
`allow_failure`; else `Running` if some job runs; else `Pending` if some job is
pending/waiting/preparing; else `Success` if all jobs succeeded — including the
vacuous case, so a stage with zero jobs reports `Success`, not `Created`; else
`Skipped` if all jobs skipped; else `Created`. -/
theorem C2_stage_status_amended (s : Stage) :
    s.status =
      if ∃ j ∈ s.jobs, j.status = .failed ∧ j.allow_failure.getD false = false then .failed
      else if ∃ j ∈ s.jobs, j.status = .running then .running
      else if ∃ j ∈ s.jobs, j.status = .pending ∨ j.status = .waitingForResource ∨
          j.status = .preparing then .pending
      else if ∀ j ∈ s.jobs, j.status = .success then .success
      else if ∀ j ∈ s.jobs, j.status = .skipped then .skipped
      else .created := by
  have e1 : ((s.jobs.any fun j => j.status == .failed && !(j.allow_failure.getD false)) = true)
      ↔ (∃ j ∈ s.jobs, j.status = .failed ∧ j.allow_failure.getD false = false) := by
    simp [List.any_eq_true, Bool.and_eq_true]
  have e2 : ((s.jobs.any fun j => j.status == .running) = true)
      ↔ (∃ j ∈ s.jobs, j.status = .running) := by
    simp [List.any_eq_true]
  have e3 : ((s.jobs.any fun j => j.status == .pending || j.status == .waitingForResource ||
      j.status == .preparing) = true)
      ↔ (∃ j ∈ s.jobs, j.status = .pending ∨ j.status = .waitingForResource ∨
          j.status = .preparing) := by
    simp [List.any_eq_true, Bool.or_eq_true, or_assoc]
  have e4 : ((s.jobs.all fun j => j.status == .success) = true)
      ↔ (∀ j ∈ s.jobs, j.status = .success) := by
    simp [List.all_eq_true]
  have e5 : ((s.jobs.all fun j => j.status == .skipped) = true)
      ↔ (∀ j ∈ s.jobs, j.status = .skipped) := by
    simp [List.all_eq_true]
  simp only [Stage.status]
  rw [foldl_flags]
  simp only [Bool.false_or]
  by_cases h1 : ∃ j ∈ s.jobs, j.status = .failed ∧ j.allow_failure.getD false = false
  · rw [if_pos (e1.mpr h1), if_pos h1]
  · rw [if_neg (fun hb => h1 (e1.mp hb)), if_neg h1]
    by_cases h2 : ∃ j ∈ s.jobs, j.status = .running
    · rw [if_pos (e2.mpr h2), if_pos h2]
    · rw [if_neg (fun hb => h2 (e2.mp hb)), if_neg h2]
      by_cases h3 : ∃ j ∈ s.jobs, j.status = .pending ∨ j.status = .waitingForResource ∨
          j.status = .preparing
      · rw [if_pos (e3.mpr h3), if_pos h3]
      · rw [if_neg (fun hb => h3 (e3.mp hb)), if_neg h3]
        by_cases h4 : ∀ j ∈ s.jobs, j.status = .success
        · rw [if_pos (e4.mpr h4), if_pos h4]
        · rw [if_neg (fun hb => h4 (e4.mp hb)), if_neg h4]
          by_cases h5 : ∀ j ∈ s.jobs, j.status = .skipped
          · rw [if_pos (e5.mpr h5), if_pos h5]
          · rw [if_neg (fun hb => h5 (e5.mp hb)), if_neg h5]

/-! ## Claims C3 and C10: the bounded pipeline-result cache -/

/-- The cache representation invariant: the eviction order lists exactly the
map's keys in insertion order, each once, and the size is bounded by the
capacity. -/
def CacheWF (st : PipelineViewState) : Prop :=
  st.cache.map Prod.fst = st.cache_order ∧
  st.cache_order.Nodup ∧
  st.cache.length ≤ MAX_CACHE_SIZE

theorem mapContains_iff (m : List (String × CachedPipeline)) (k : String) :
    mapContains m k = true ↔ k ∈ m.map Prod.fst := by
  simp only [mapContains, List.any_eq_true, List.mem_map, beq_iff_eq]

theorem mapContains_false_iff (m : List (String × CachedPipeline)) (k : String) :
    mapContains m k = false ↔ k ∉ m.map Prod.fst := by
  rw [← Bool.not_eq_true, not_iff_not]
  exact mapContains_iff m k

theorem mapInsert_fresh (m : List (String × CachedPipeline)) (k : String)
    (v : CachedPipeline) (h : mapContains m k = false) :
    mapInsert m k v = m ++ [(k, v)] := by
  simp [mapInsert, h]

theorem map_fst_mapInsert_present (m : List (String × CachedPipeline)) (k : String)
    (v : CachedPipeline) (h : mapContains m k = true) :
    (mapInsert m k v).map Prod.fst = m.map Prod.fst := by
  rw [mapInsert, if_pos h, List.map_map]
  apply List.map_congr_left
  intro p _
  by_cases hpk : (p.1 == k) = true
  · have : p.1 = k := eq_of_beq hpk
    simp [hpk, this]
  · have hne : p.1 ≠ k := by
      intro hc
      rw [hc] at hpk
      simp at hpk
    simp [hne]

theorem length_mapInsert_present (m : List (String × CachedPipeline)) (k : String)
    (v : CachedPipeline) (h : mapContains m k = true) :
    (mapInsert m k v).length = m.length := by
  simp [mapInsert, h]

theorem mapRemove_head (m : List (String × CachedPipeline)) (old : String)
    (hh : (m.map Prod.fst).head? = some old) :
    mapRemove m old = m.drop 1 := by
  cases m with
  | nil => simp at hh
  | cons p rest =>
      simp only [List.map_cons, List.head?_cons, Option.some_inj] at hh
      simp [mapRemove, List.eraseP_cons, hh]

theorem map_fst_mapRemove_filter (k : String) :
    ∀ (m : List (String × CachedPipeline)), (m.map Prod.fst).Nodup →
    (mapRemove m k).map Prod.fst = (m.map Prod.fst).filter (fun s => s != k) := by
  intro m
  induction m with
  | nil => intro _; simp [mapRemove]
  | cons p rest ih =>
      intro hnod
      simp only [List.map_cons, List.nodup_cons] at hnod
      obtain ⟨hp, hrest⟩ := hnod
      by_cases hpk : (p.1 == k) = true
      · have hpk2 : p.1 = k := eq_of_beq hpk
        rw [mapRemove, List.eraseP_cons, List.map_cons]
        simp only [hpk, cond_true]
        have : (p.1 != k) = false := by simp [hpk2]
        rw [List.filter_cons_of_neg (by simp [this])]
        symm
        rw [List.filter_eq_self]
        intro a ha
        simp only [ne_eq, bne_iff_ne]
        intro hc
        rw [hc, ← hpk2] at ha
        exact hp ha
      · have hne : (p.1 != k) = true := by
          simp only [Bool.not_eq_true] at hpk
          simp only [bne_iff_ne, ne_eq]
          intro hc
          rw [hc] at hpk
          simp at hpk
        simp only [Bool.not_eq_true] at hpk
        rw [mapRemove, List.eraseP_cons, List.map_cons, List.filter_cons]
        simp only [hpk, cond_false, hne, if_pos, List.map_cons]
        rw [← ih hrest]
        rfl

theorem mapContains_false_drop (m : List (String × CachedPipeline)) (k : String)
    (n : Nat) (h : mapContains m k = false) : mapContains (m.drop n) k = false := by
  rw [mapContains_false_iff] at h ⊢
  intro hc
  apply h
  rcases List.mem_map.mp hc with ⟨p, hp, he⟩
  exact List.mem_map.mpr ⟨p, List.mem_of_mem_drop hp, he⟩

/-- `CacheWF` only depends on the two cache fields. -/
theorem cacheWF_of_fields {st st' : PipelineViewState} (h : CacheWF st)
    (hc : st'.cache = st.cache) (ho : st'.cache_order = st.cache_order) :
    CacheWF st' := by
  obtain ⟨a, b, c⟩ := h
  exact ⟨by rw [hc, ho]; exact a, by rw [ho]; exact b, by rw [hc]; exact c⟩

theorem cache_result_WF (st : PipelineViewState) (sha : String) (v : CachedPipeline)
    (h : CacheWF st) : CacheWF (st.cache_result sha v) := by
  obtain ⟨hfst, hnod, hlen⟩ := h
  unfold PipelineViewState.cache_result
  dsimp only
  by_cases hfull : MAX_CACHE_SIZE ≤ st.cache.length
  · rw [if_pos hfull]
    have hne : st.cache ≠ [] := by
      intro hcnil
      rw [hcnil] at hfull
      simp [MAX_CACHE_SIZE] at hfull
    obtain ⟨p, rest, hc⟩ : ∃ p rest, st.cache = p :: rest := by
      cases hcc : st.cache with
      | nil => exact absurd hcc hne
      | cons p rest => exact ⟨p, rest, rfl⟩
    have hord : st.cache_order.head? = some p.1 := by
      rw [← hfst, hc]
      rfl
    rw [hord]
    have hM1 : mapRemove st.cache p.1 = st.cache.drop 1 :=
      mapRemove_head st.cache p.1 (by rw [hc]; rfl)
    dsimp only
    rw [hM1]
    have hfst1 : (st.cache.drop 1).map Prod.fst = st.cache_order.drop 1 := by
      rw [List.map_drop, hfst]
    have hnod1 : (st.cache_order.drop 1).Nodup :=
      (List.drop_sublist 1 st.cache_order).nodup hnod
    have hlen1 : (st.cache.drop 1).length ≤ MAX_CACHE_SIZE - 1 := by
      rw [List.length_drop]
      omega
    by_cases hc2 : mapContains (st.cache.drop 1) sha = true
    · rw [if_pos hc2]
      dsimp only
      refine ⟨?_, hnod1, ?_⟩
      · rw [map_fst_mapInsert_present _ _ _ hc2, hfst1]
      · rw [length_mapInsert_present _ _ _ hc2]
        simp only [MAX_CACHE_SIZE] at hlen1 ⊢
        omega
    · rw [if_neg (by simpa using hc2)]
      dsimp only
      have hc2' : mapContains (st.cache.drop 1) sha = false := by
        simpa using hc2
      rw [mapInsert_fresh _ _ _ hc2']
      refine ⟨?_, ?_, ?_⟩
      · rw [List.map_append, hfst1]
        rfl
      · rw [List.nodup_append]
        refine ⟨hnod1, by simp, ?_⟩
        intro a ha hb
        simp only [List.mem_singleton] at hb
        subst hb
        rw [mapContains_false_iff] at hc2'
        rw [hfst1] at hc2'
        exact hc2' ha
      · rw [List.length_append, List.length_singleton]
        simp only [MAX_CACHE_SIZE] at hlen1 ⊢
        omega
  · rw [if_neg hfull]
    by_cases hc2 : mapContains st.cache sha = true
    · rw [if_pos hc2]
      refine ⟨?_, hnod, ?_⟩
      · rw [map_fst_mapInsert_present _ _ _ hc2, hfst]
      · rw [length_mapInsert_present _ _ _ hc2]
        exact hlen
    · rw [if_neg (by simpa using hc2)]
      have hc2' : mapContains st.cache sha = false := by simpa using hc2
      rw [mapInsert_fresh _ _ _ hc2']
      refine ⟨?_, ?_, ?_⟩
      · rw [List.map_append, hfst]
        rfl
      · rw [List.nodup_append]
        refine ⟨hnod, by simp, ?_⟩
        intro a ha hb
        simp only [List.mem_singleton] at hb
        subst hb
        rw [mapContains_false_iff] at hc2'
        rw [hfst] at hc2'
        exact hc2' ha
      · rw [List.length_append, List.length_singleton]
        simp only [MAX_CACHE_SIZE] at hfull ⊢
        omega

theorem invalidate_cache_WF (st : PipelineViewState) (sha : String)
    (h : CacheWF st) : CacheWF (st.invalidate_cache sha) := by
  obtain ⟨hfst, hnod, hlen⟩ := h
  unfold PipelineViewState.invalidate_cache
  refine ⟨?_, ?_, ?_⟩
  · dsimp only
    rw [map_fst_mapRemove_filter sha st.cache (by rw [hfst]; exact hnod), hfst]
  · exact hnod.filter _
  · exact le_trans (List.length_eraseP_le _) hlen

theorem set_pipeline_WF (st : PipelineViewState) (osha : Option String)
    (details : Option PipelineDetails) (h : CacheWF st) :
    CacheWF (st.set_pipeline osha details) := by
  unfold PipelineViewState.set_pipeline
  cases osha with
  | none =>
      dsimp only
      split <;> exact cacheWF_of_fields h rfl rfl
  | some s =>
      dsimp only
      have hbase := cache_result_WF st s
        (match details with
          | some d => CachedPipeline.found d
          | none => CachedPipeline.notFound) h
      split <;> exact cacheWF_of_fields hbase rfl rfl

theorem set_error_WF (st : PipelineViewState) (osha : Option String) (err : String)
    (h : CacheWF st) : CacheWF (st.set_error osha err) := by
  unfold PipelineViewState.set_error
  cases osha with
  | none => exact cacheWF_of_fields h rfl rfl
  | some s =>
      dsimp only
      exact cacheWF_of_fields (cache_result_WF st s (CachedPipeline.error err) h) rfl rfl

/-- C10: every cache-touching operation on `PipelineViewState` preserves the
cache invariant — the insertion-order list holds exactly the map's keys, each
once, and the entry count never exceeds the capacity of 100 — including
re-insertion of a present key while the cache is full. -/
theorem C10_cache_invariant (st : PipelineViewState) (sha : String)
    (osha : Option String) (v : CachedPipeline) (details : Option PipelineDetails)
    (err : String) (h : CacheWF st) :
    CacheWF (st.cache_result sha v) ∧
    CacheWF (st.invalidate_cache sha) ∧
    CacheWF (st.set_pipeline osha details) ∧
    CacheWF (st.set_error osha err) :=
  ⟨cache_result_WF st sha v h, invalidate_cache_WF st sha h,
   set_pipeline_WF st osha details h, set_error_WF st osha err h⟩

theorem mapGet_append_single_fresh (k : String) (v : CachedPipeline) :
    ∀ (m : List (String × CachedPipeline)), mapContains m k = false →
    mapGet (m ++ [(k, v)]) k = some v := by
  intro m
  induction m with
  | nil => intro _; simp [mapGet, List.find?]
  | cons p rest ih =>
      intro h
      simp only [mapContains, List.any_cons, Bool.or_eq_false_iff] at h
      obtain ⟨hp, hrest⟩ := h
      simp only [List.cons_append, mapGet, List.find?, hp]
      exact ih hrest

/-- Inserting a fresh key into a full cache drops the head of both lists and
appends the new entry at the back. -/
theorem cache_result_shape_full_fresh (st : PipelineViewState) (sha : String)
    (v : CachedPipeline) (hfst : st.cache.map Prod.fst = st.cache_order)
    (hfull : st.cache.length = MAX_CACHE_SIZE)
    (hfresh : mapContains st.cache sha = false) :
    (st.cache_result sha v).cache = st.cache.drop 1 ++ [(sha, v)] ∧
    (st.cache_result sha v).cache_order = st.cache_order.drop 1 ++ [sha] := by
  have hfull' : MAX_CACHE_SIZE ≤ st.cache.length := le_of_eq hfull.symm
  have hne : st.cache ≠ [] := by
    intro hcnil
    rw [hcnil] at hfull
    simp [MAX_CACHE_SIZE] at hfull
  obtain ⟨p, rest, hc⟩ : ∃ p rest, st.cache = p :: rest := by
    cases hcc : st.cache with
    | nil => exact absurd hcc hne
    | cons p rest => exact ⟨p, rest, rfl⟩
  have hord : st.cache_order.head? = some p.1 := by
    rw [← hfst, hc]
    rfl
  have hfresh1 : mapContains (st.cache.drop 1) sha = false :=
    mapContains_false_drop st.cache sha 1 hfresh
  unfold PipelineViewState.cache_result
  dsimp only
  rw [if_pos hfull', hord]
  dsimp only
  rw [mapRemove_head st.cache p.1 (by rw [hc]; rfl)]
  rw [if_neg (by rw [hfresh1]; simp)]
  dsimp only
  rw [mapInsert_fresh _ _ _ hfresh1]
  exact ⟨rfl, rfl⟩

/-- Inserting a fresh key into a cache below capacity appends to both lists. -/
theorem cache_result_shape_notfull_fresh (st : PipelineViewState) (sha : String)
    (v : CachedPipeline) (hnotfull : st.cache.length < MAX_CACHE_SIZE)
    (hfresh : mapContains st.cache sha = false) :
    (st.cache_result sha v).cache = st.cache ++ [(sha, v)] ∧
    (st.cache_result sha v).cache_order = st.cache_order ++ [sha] := by
  unfold PipelineViewState.cache_result
  dsimp only
  rw [if_neg (Nat.not_le.mpr hnotfull)]
  rw [if_neg (by simp [hfresh])]
  dsimp only
  rw [mapInsert_fresh _ _ _ hfresh]
  exact ⟨rfl, rfl⟩

/-- C3: with the cache at its capacity of 100, inserting a fresh key evicts
exactly the oldest-inserted key (head of the insertion order) from both the
map and the order list and appends the new key at the back;
`invalidate_cache` removes the key from both; and re-inserting an invalidated
key is a fresh insertion appended at the back of the eviction order. -/
theorem C3_cache_semantics (st : PipelineViewState) (sha : String) (v : CachedPipeline)
    (h : CacheWF st) :
    (st.cache.length = MAX_CACHE_SIZE → mapContains st.cache sha = false →
      (st.cache_result sha v).cache = st.cache.drop 1 ++ [(sha, v)] ∧
      (st.cache_result sha v).cache_order = st.cache_order.drop 1 ++ [sha] ∧
      (∀ old, st.cache_order.head? = some old →
        mapContains (st.cache_result sha v).cache old = false)) ∧
    (mapContains (st.invalidate_cache sha).cache sha = false ∧
      sha ∉ (st.invalidate_cache sha).cache_order) ∧
    (((st.invalidate_cache sha).cache_result sha v).cache_order.getLast? = some sha ∧
      mapGet ((st.invalidate_cache sha).cache_result sha v).cache sha = some v) := by
  obtain ⟨hfst, hnod, hlen⟩ := h
  have hfst_inv : (st.invalidate_cache sha).cache.map Prod.fst =
      (st.invalidate_cache sha).cache_order :=
    (invalidate_cache_WF st sha ⟨hfst, hnod, hlen⟩).1
  have hnod_inv : (st.invalidate_cache sha).cache_order.Nodup :=
    (invalidate_cache_WF st sha ⟨hfst, hnod, hlen⟩).2.1
  have hlen_inv : (st.invalidate_cache sha).cache.length ≤ MAX_CACHE_SIZE :=
    (invalidate_cache_WF st sha ⟨hfst, hnod, hlen⟩).2.2
  have hpart2a : mapContains (st.invalidate_cache sha).cache sha = false := by
    rw [mapContains_false_iff, hfst_inv]
    show sha ∉ (st.invalidate_cache sha).cache_order
    unfold PipelineViewState.invalidate_cache
    dsimp only
    intro hc
    have := List.mem_filter.mp hc
    simp at this
  have hpart2b : sha ∉ (st.invalidate_cache sha).cache_order := by
    rw [← hfst_inv]
    rw [mapContains_false_iff] at hpart2a
    exact hpart2a
  refine ⟨?_, ⟨hpart2a, hpart2b⟩, ?_⟩
  · intro hfull hfresh
    obtain ⟨hcache_eq, horder_eq⟩ :=
      cache_result_shape_full_fresh st sha v hfst hfull hfresh
    refine ⟨hcache_eq, horder_eq, ?_⟩
    intro old hold
    rw [mapContains_false_iff, hcache_eq, List.map_append, List.map_drop, hfst]
    intro hc
    rcases List.mem_append.mp hc with hc | hc
    · -- old is the nodup head of the order, hence not in the tail
      have hmem : old ∈ st.cache_order := by
        exact List.mem_of_mem_drop hc
      cases horder : st.cache_order with
      | nil => rw [horder] at hold; simp at hold
      | cons o rest =>
          rw [horder] at hold
          simp only [List.head?_cons, Option.some_inj] at hold
          subst hold
          rw [horder] at hc
          rw [horder] at hnod
          simp only [List.drop_one, List.tail_cons] at hc
          exact (List.nodup_cons.mp hnod).1 hc
    · -- old would be the fresh key, but old was present and sha was not
      simp only [List.map_cons, List.map_nil, List.mem_singleton] at hc
      subst hc
      rw [mapContains_false_iff, hfst] at hfresh
      apply hfresh
      cases horder : st.cache_order with
      | nil => rw [horder] at hold; simp at hold
      | cons o rest =>
          rw [horder] at hold
          simp only [List.head?_cons, Option.some_inj] at hold
          subst hold
          exact List.mem_cons_self _ _
  · rcases Nat.lt_or_ge (st.invalidate_cache sha).cache.length MAX_CACHE_SIZE with hlt | hge
    · obtain ⟨hcache_eq, horder_eq⟩ :=
        cache_result_shape_notfull_fresh (st.invalidate_cache sha) sha v hlt hpart2a
      refine ⟨?_, ?_⟩
      · rw [horder_eq]
        exact List.getLast?_concat _
      · rw [hcache_eq]
        exact mapGet_append_single_fresh sha v _ hpart2a
    · have hfull : (st.invalidate_cache sha).cache.length = MAX_CACHE_SIZE :=
        le_antisymm hlen_inv hge
      obtain ⟨hcache_eq, horder_eq⟩ :=
        cache_result_shape_full_fresh (st.invalidate_cache sha) sha v hfst_inv hfull hpart2a
      refine ⟨?_, ?_⟩
      · rw [horder_eq]
        exact List.getLast?_concat _
      · rw [hcache_eq]
        exact mapGet_append_single_fresh sha v _
          (mapContains_false_drop _ sha 1 hpart2a)

/-- A view state with everything empty, used as a concrete test fixture. -/
def emptyViewState : PipelineViewState :=
  { details := none, current_sha := none, selected_stage := 0, selected_job := 0,
    scroll_x := 0, scroll_y := 0, error := none, loading := false, cache := [],
    cache_order := [], animation_tick := 0, job_log := [], job_log_job_id := none,
    job_log_scroll := 0, job_log_loading := false, job_log_error := none,
    job_log_cache := [], job_log_focused := false, job_log_visible_height := 0 }

/-- A view state whose cache is exactly at the capacity of 100, with 100
distinct single-character keys. -/
def fullCacheState : PipelineViewState :=
  { emptyViewState with
    cache := (List.range 100).map fun i =>
      (String.mk [Char.ofNat (65 + i)], CachedPipeline.notFound),
    cache_order := (List.range 100).map fun i => String.mk [Char.ofNat (65 + i)] }

theorem C10_cache_invariant_witness :
    CacheWF (emptyViewState.cache_result "a" CachedPipeline.notFound) ∧
    CacheWF (emptyViewState.invalidate_cache "a") ∧
    CacheWF (emptyViewState.set_pipeline (some "b") none) ∧
    CacheWF (emptyViewState.set_error (some "b") "boom") :=
  C10_cache_invariant emptyViewState "a" (some "b") CachedPipeline.notFound none "boom"
    ⟨rfl, List.nodup_nil, by simp [emptyViewState, MAX_CACHE_SIZE]⟩

theorem C3_cache_semantics_witness :
    ((fullCacheState.cache_result "0" CachedPipeline.notFound).cache_order =
      fullCacheState.cache_order.drop 1 ++ ["0"]) ∧
    (mapContains (fullCacheState.cache_result "0" CachedPipeline.notFound).cache
      (String.mk [Char.ofNat 65]) = false) ∧
    (((fullCacheState.invalidate_cache "0").cache_result "0"
        CachedPipeline.notFound).cache_order.getLast? = some "0") := by
  have hwf : CacheWF fullCacheState := ⟨by decide, by decide, by decide⟩
  have h := C3_cache_semantics fullCacheState "0" CachedPipeline.notFound hwf
  have hpart1 := h.1 (by decide) (by decide)
  exact ⟨hpart1.2.1, hpart1.2.2 (String.mk [Char.ofNat 65]) (by decide), h.2.2.1⟩

/-! ## Claim C6: selection safety -/

theorem select_next_stage_spec (st : PipelineViewState) (d : PipelineDetails)
    (hd : st.details = some d) :
    st.select_next_stage =
      if st.selected_stage < d.stages.length - 1 then
        { st with selected_stage := st.selected_stage + 1, selected_job := 0 }
      else st := by
  unfold PipelineViewState.select_next_stage
  rw [hd]

theorem select_next_job_spec (st : PipelineViewState) (d : PipelineDetails)
    (hd : st.details = some d) :
    st.select_next_job =
      match d.stages.get? st.selected_stage with
      | some stage =>
          if st.selected_job < stage.jobs.length - 1 then
            { st with selected_job := st.selected_job + 1 }
          else st
      | none => st := by
  unfold PipelineViewState.select_next_job
  rw [hd]

/-- C6: with the selected stage index in bounds and the job index within the
clamped range `[0, jobs.len - 1]` of the selected stage, `select_next_stage`
at the last stage is a no-op; all four selection moves keep both indices in
their clamped ranges; and the stage-changing moves reset the job index to 0
while the job moves never change the stage index. -/
theorem C6_selection_safety (st : PipelineViewState) (d : PipelineDetails)
    (hd : st.details = some d)
    (hs : st.selected_stage < d.stages.length)
    (hj : st.selected_job ≤ (d.stages.getD st.selected_stage ⟨"", []⟩).jobs.length - 1) :
    (st.selected_stage = d.stages.length - 1 → st.select_next_stage = st) ∧
    (st.select_next_stage.selected_stage < d.stages.length ∧
      st.select_next_stage.selected_job ≤
        (d.stages.getD st.select_next_stage.selected_stage ⟨"", []⟩).jobs.length - 1) ∧
    (st.select_prev_stage.selected_stage < d.stages.length ∧
      st.select_prev_stage.selected_job ≤
        (d.stages.getD st.select_prev_stage.selected_stage ⟨"", []⟩).jobs.length - 1) ∧
    (st.select_next_job.selected_stage < d.stages.length ∧
      st.select_next_job.selected_job ≤
        (d.stages.getD st.select_next_job.selected_stage ⟨"", []⟩).jobs.length - 1) ∧
    (st.select_prev_job.selected_stage < d.stages.length ∧
      st.select_prev_job.selected_job ≤
        (d.stages.getD st.select_prev_job.selected_stage ⟨"", []⟩).jobs.length - 1) ∧
    (st.select_next_stage.selected_stage ≠ st.selected_stage →
      st.select_next_stage.selected_job = 0) ∧
    (st.select_prev_stage.selected_stage ≠ st.selected_stage →
      st.select_prev_stage.selected_job = 0) ∧
    (st.select_next_job.selected_stage = st.selected_stage) ∧
    (st.select_prev_job.selected_stage = st.selected_stage) := by
  have hnext := select_next_stage_spec st d hd
  have hnextj := select_next_job_spec st d hd
  refine ⟨?_, ?_, ?_, ?_, ?_, ?_, ?_, ?_, ?_⟩
  · intro hlast
    rw [hnext, if_neg (by omega)]
  · rw [hnext]
    by_cases hg : st.selected_stage < d.stages.length - 1
    · rw [if_pos hg]
      exact ⟨by dsimp only; omega, by dsimp only; omega⟩
    · rw [if_neg hg]
      exact ⟨hs, hj⟩
  · unfold PipelineViewState.select_prev_stage
    by_cases hg : st.selected_stage > 0
    · rw [if_pos hg]
      exact ⟨by dsimp only; omega, by dsimp only; omega⟩
    · rw [if_neg hg]
      exact ⟨hs, hj⟩
  · rw [hnextj]
    cases hget : d.stages.get? st.selected_stage with
    | none => exact ⟨hs, hj⟩
    | some stage =>
        dsimp only
        by_cases hg : st.selected_job < stage.jobs.length - 1
        · rw [if_pos hg]
          refine ⟨hs, ?_⟩
          dsimp only
          have : d.stages.getD st.selected_stage ⟨"", []⟩ = stage := by
            rw [List.getD_eq_getD_get?, hget]
            rfl
          rw [this]
          omega
        · rw [if_neg hg]
          exact ⟨hs, hj⟩
  · unfold PipelineViewState.select_prev_job
    by_cases hg : st.selected_job > 0
    · rw [if_pos hg]
      refine ⟨hs, ?_⟩
      dsimp only
      omega
    · rw [if_neg hg]
      exact ⟨hs, hj⟩
  · rw [hnext]
    by_cases hg : st.selected_stage < d.stages.length - 1
    · rw [if_pos hg]
      intro _
      rfl
    · rw [if_neg hg]
      intro hc
      exact absurd rfl hc
  · unfold PipelineViewState.select_prev_stage
    by_cases hg : st.selected_stage > 0
    · rw [if_pos hg]
      intro _
      rfl
    · rw [if_neg hg]
      intro hc
      exact absurd rfl hc
  · rw [hnextj]
    cases hget : d.stages.get? st.selected_stage with
    | none => rfl
    | some stage =>
        dsimp only
        by_cases hg : st.selected_job < stage.jobs.length - 1
        · rw [if_pos hg]
        · rw [if_neg hg]
  · unfold PipelineViewState.select_prev_job
    by_cases hg : st.selected_job > 0
    · rw [if_pos hg]
    · rw [if_neg hg]

/-- A concrete job fixture. -/
def demoJobBuild : Job :=
  { id := 1, name := "compile", status := .success, stage := "build",
    web_url := none, started_at := none, finished_at := none, allow_failure := none }

/-- A second concrete job fixture. -/
def demoJobTest : Job :=
  { id := 2, name := "unit", status := .running, stage := "test",
    web_url := none, started_at := none, finished_at := none, allow_failure := none }

/-- A two-stage pipeline fixture. -/
def demoDetails : PipelineDetails :=
  { pipeline := none,
    stages := [⟨"build", [demoJobBuild]⟩, ⟨"test", [demoJobTest]⟩] }

/-- A view state holding `demoDetails` with the cursor at the origin. -/
def demoState : PipelineViewState :=
  { emptyViewState with details := some demoDetails }

theorem C6_selection_safety_witness :
    demoState.select_next_stage.selected_stage < demoDetails.stages.length ∧
    demoState.select_next_job.selected_stage = demoState.selected_stage :=
  ⟨(C6_selection_safety demoState demoDetails rfl (by decide) (by decide)).2.1.1,
   (C6_selection_safety demoState demoDetails rfl (by decide)
      (by decide)).2.2.2.2.2.2.2.1⟩

/-! ## Claim C7: ANSI SGR code mapping -/

/-- C7 counterexample: the claim says every palette code paired with `;1`
yields the bold variant of that color, but `apply_ansi_code "90;1"` matches no
arm and resets: its foreground is `none`, not the 90-palette color. -/
theorem C7_ansi_cex :
    ¬ (apply_ansi_code "90;1" =
        { fg := some ⟨76, 86, 106⟩, bold := true }) := by
  decide

set_option maxHeartbeats 1000000 in
/-- C7 (amended): code 0, the empty code, and `0;` reset; 1 is bold; 31–37 and
90 map to the fixed palette; 31–36 paired with `;1` give the bold variant;
`37;1` gives the same non-bold white as `37`; `0;33` the same yellow as `33`;
`90;1` and every other unrecognized split form reset. -/
theorem C7_ansi_mapping_amended :
    (apply_ansi_code "0" = Style.default ∧ apply_ansi_code "" = Style.default ∧
      apply_ansi_code "0;" = Style.default) ∧
    (apply_ansi_code "1" = { fg := none, bold := true }) ∧
    (apply_ansi_code "31" = { fg := some ⟨191, 97, 106⟩, bold := false } ∧
      apply_ansi_code "31;1" = { fg := some ⟨191, 97, 106⟩, bold := true }) ∧
    (apply_ansi_code "32" = { fg := some ⟨163, 190, 140⟩, bold := false } ∧
      apply_ansi_code "32;1" = { fg := some ⟨163, 190, 140⟩, bold := true }) ∧
    (apply_ansi_code "33" = { fg := some ⟨235, 203, 139⟩, bold := false } ∧
      apply_ansi_code "33;1" = { fg := some ⟨235, 203, 139⟩, bold := true } ∧
      apply_ansi_code "0;33" = { fg := some ⟨235, 203, 139⟩, bold := false }) ∧
    (apply_ansi_code "34" = { fg := some ⟨94, 129, 172⟩, bold := false } ∧
      apply_ansi_code "34;1" = { fg := some ⟨94, 129, 172⟩, bold := true }) ∧
    (apply_ansi_code "35" = { fg := some ⟨180, 142, 173⟩, bold := false } ∧
      apply_ansi_code "35;1" = { fg := some ⟨180, 142, 173⟩, bold := true }) ∧
    (apply_ansi_code "36" = { fg := some ⟨136, 192, 208⟩, bold := false } ∧
      apply_ansi_code "36;1" = { fg := some ⟨136, 192, 208⟩, bold := true }) ∧
    (apply_ansi_code "37" = { fg := some ⟨216, 222, 233⟩, bold := false } ∧
      apply_ansi_code "37;1" = { fg := some ⟨216, 222, 233⟩, bold := false }) ∧
    (apply_ansi_code "90" = { fg := some ⟨76, 86, 106⟩, bold := false } ∧
      apply_ansi_code "90;1" = Style.default) ∧
    (∀ code : String,
      splitSemi code ∉
        [["0"], [""], ["0", ""], ["1"], ["31"], ["31", "1"], ["32"], ["32", "1"],
         ["33"], ["0", "33"], ["33", "1"], ["34"], ["34", "1"], ["35"], ["35", "1"],
         ["36"], ["36", "1"], ["37"], ["37", "1"], ["90"]] →
      apply_ansi_code code = Style.default) := by
  refine ⟨by decide, by decide, by decide, by decide, by decide, by decide, by decide,
    by decide, by decide, by decide, ?_⟩
  intro code h
  simp only [List.mem_cons, List.mem_singleton, not_or] at h
  obtain ⟨h1, h2, h3, h4, h5, h6, h7, h8, h9, h10, h11, h12, h13, h14, h15, h16,
    h17, h18, h19, h20⟩ := h
  simp [apply_ansi_code, h1, h2, h3, h4, h5, h6, h7, h8, h9, h10, h11, h12, h13,
    h14, h15, h16, h17, h18, h19, h20, Style.default]

theorem C7_ansi_mapping_amended_witness :
    apply_ansi_code "99" = Style.default :=
  C7_ansi_mapping_amended.2.2.2.2.2.2.2.2.2.2 "99" (by decide)

/-! ## Claim C4: log section durations -/

/-- C4 (code bug): for the spec's own example shape — a `section_start`
marker, an output line, a `section_end` marker, then a following line — no
`00:45` duration is attached anywhere.  `extract_section_timestamp` splits the
marker *after* the callers have already stripped the `section_end:` prefix, so
its `parts[1]` is the section name, never the epoch, and the duration
machinery never fires; both output lines survive with `duration = none`. -/
theorem C4_section_duration_bug :
    parse_gitlab_log "section_start:100:build\nstep one\nsection_end:145:build\nnext line" =
      [{ timestamp := none, content := "step one",
         styled := [("step one", Style.default)], duration := none },
       { timestamp := none, content := "next line",
         styled := [("next line", Style.default)], duration := none }] ∧
    extract_section_timestamp "145:build" = none := by
  constructor
  · rfl
  · rfl

/-! ## Claim C8: client composition and URL encoding -/

theorem urlencoded_no_slash_aux :
    ∀ (cs : List Char),
      '/' ∉ cs.flatMap fun c => if c = '/' then "%2F".toList else [c] := by
  intro cs
  induction cs with
  | nil => simp
  | cons c rest ih =>
      simp only [List.flatMap_cons, List.mem_append]
      rintro (hc | hc)
      · by_cases h : c = '/'
        · rw [if_pos h] at hc
          simp at hc
        · rw [if_neg h] at hc
          simp only [List.mem_singleton] at hc
          exact h (hc ▸ rfl)
      · exact ih hc

/-- C8: `get_pipeline_details` composes the pipeline lookup, the jobs fetch
and `from_jobs` grouping; when the lookup yields no pipeline it returns `None`
having issued only the pipelines request (no jobs request); and the project id
has every `/` percent-encoded as `%2F` in the request path. -/
theorem C8_get_pipeline_details (w : ApiWorld) (base project sha : String) :
    (∀ e, w.pipelines (pipelineUrl base project sha) = .error e →
      get_pipeline_details w base project sha =
        (.error e, [pipelineUrl base project sha])) ∧
    (w.pipelines (pipelineUrl base project sha) = .ok [] →
      get_pipeline_details w base project sha =
        (.ok none, [pipelineUrl base project sha])) ∧
    (∀ p ps js, w.pipelines (pipelineUrl base project sha) = .ok (p :: ps) →
      w.jobs (jobsUrl base project p.id) = .ok js →
      get_pipeline_details w base project sha =
        (.ok (some (PipelineDetails.from_jobs p js)),
         [pipelineUrl base project sha, jobsUrl base project p.id])) ∧
    ('/' ∉ (urlencoded project).toList) ∧
    (urlencoded "grp/sub/prj" = "grp%2Fsub%2Fprj") := by
  refine ⟨?_, ?_, ?_, ?_, by decide⟩
  · intro e he
    unfold get_pipeline_details get_pipeline_for_commit
    dsimp only
    rw [he]
    rfl
  · intro he
    unfold get_pipeline_details get_pipeline_for_commit
    dsimp only
    rw [he]
    rfl
  · intro p ps js hp hj
    unfold get_pipeline_details get_pipeline_for_commit get_pipeline_jobs
    dsimp only
    rw [hp]
    dsimp only [Except.map, List.head?]
    rw [hj]
    rfl
  · show '/' ∉ (String.mk (project.toList.flatMap fun c =>
      if c = '/' then "%2F".toList else [c])).toList
    exact urlencoded_no_slash_aux project.toList

/-- A remote with no pipelines. -/
def demoWorldEmpty : ApiWorld :=
  { pipelines := fun _ => .ok [], jobs := fun _ => .ok [] }

/-- A concrete pipeline fixture. -/
def demoPipeline : Pipeline :=
  { id := 42, iid := none, status := .running, sha := "abc123", ref_name := none,
    web_url := none, created_at := none, updated_at := none }

/-- A remote holding `demoPipeline` with two jobs. -/
def demoWorldFound : ApiWorld :=
  { pipelines := fun _ => .ok [demoPipeline],
    jobs := fun _ => .ok [demoJobBuild, demoJobTest] }

theorem C8_get_pipeline_details_witness :
    get_pipeline_details demoWorldEmpty "https://g" "grp/prj" "abc123" =
      (.ok none, [pipelineUrl "https://g" "grp/prj" "abc123"]) ∧
    get_pipeline_details demoWorldFound "https://g" "grp/prj" "abc123" =
      (.ok (some (PipelineDetails.from_jobs demoPipeline [demoJobBuild, demoJobTest])),
       [pipelineUrl "https://g" "grp/prj" "abc123", jobsUrl "https://g" "grp/prj" 42]) :=
  ⟨(C8_get_pipeline_details demoWorldEmpty "https://g" "grp/prj" "abc123").2.1 rfl,
   (C8_get_pipeline_details demoWorldFound "https://g" "grp/prj" "abc123").2.2.1
      demoPipeline [] [demoJobBuild, demoJobTest] rfl rfl⟩

/-! ## Claim C5: layout strategy selection -/

/-- Every ideal stage width is at least the minimum stage width. -/
theorem calculate_stage_width_ge_min (s : Stage) :
    MIN_STAGE_WIDTH ≤ calculate_stage_width s :=
  le_max_right _ _

theorem placeRow_length (x y h : Nat) :
    ∀ (ws : List Nat), (placeRow ws x y h).length = ws.length := by
  intro ws
  induction ws generalizing x with
  | nil => simp [placeRow]
  | cons w rest ih =>
      simp only [placeRow, List.length_cons]
      rw [ih]

theorem placeRow_map_y (y h : Nat) :
    ∀ (ws : List Nat) (x : Nat),
      (placeRow ws x y h).map StageLayout.y = List.replicate ws.length y := by
  intro ws
  induction ws with
  | nil => intro x; simp [placeRow]
  | cons w rest ih =>
      intro x
      simp only [placeRow, List.map_cons, List.length_cons, List.replicate_succ]
      rw [ih]

theorem placeRow_mem_width (y h : Nat) :
    ∀ (ws : List Nat) (x : Nat) (sl : StageLayout),
      sl ∈ placeRow ws x y h → sl.width ∈ ws := by
  intro ws
  induction ws with
  | nil => intro x sl hsl; simp [placeRow] at hsl
  | cons w rest ih =>
      intro x sl hsl
      simp only [placeRow, List.mem_cons] at hsl
      rcases hsl with hsl | hsl
      · subst hsl
        exact List.mem_cons_self _ _
      · exact List.mem_cons_of_mem _ (ih _ sl hsl)

theorem sum_ge_length_mul_min (l : List Nat) (m : Nat) (h : ∀ x ∈ l, m ≤ x) :
    l.length * m ≤ l.sum := by
  have := List.card_nsmul_le_sum l m h
  simpa [smul_eq_mul] using this

/-- In the wrap strategy every produced box width is at least
`min MIN_STAGE_WIDTH (width - 3)` as long as the ideal widths respect the
minimum. -/
theorem wrapGo_width_bound :
    ∀ (fuel : Nat) (stages : List Stage) (ideal : List Nat) (areaX width ri y : Nat),
      (∀ w ∈ ideal, MIN_STAGE_WIDTH ≤ w) →
      ∀ sl ∈ (wrapGo fuel stages ideal areaX width ri y).1,
        min MIN_STAGE_WIDTH (width - 3) ≤ sl.width := by
  intro fuel
  induction fuel with
  | zero =>
      intro stages ideal areaX width ri y _ sl hsl
      cases stages <;> simp [wrapGo] at hsl
  | succ fuel2 ih =>
      intro stages ideal areaX width ri y hmin sl hsl
      cases stages with
      | nil => simp [wrapGo] at hsl
      | cons s0 srest =>
          rw [wrapGo] at hsl
          dsimp only at hsl
          rw [List.mem_append] at hsl
          rcases hsl with hsl | hsl
      
          · have hw := placeRow_mem_width _ _ _ _ _ hsl
            by_cases hri : ri > 0
            · simp only [if_pos hri] at hw
              split at hw
              · split at hw
                · rcases List.mem_map.mp hw with ⟨w, hwm, hwv⟩
                  have hge : MIN_STAGE_WIDTH ≤ sl.width := by
                    rw [← hwv]
                    exact le_max_right _ _
                  simp only [MIN_STAGE_WIDTH] at *
                  omega
                · rcases List.mem_map.mp hw with ⟨w0, hmem, hwv⟩
                  have h16 := hmin w0 (List.mem_of_mem_take hmem)
                  simp only [MIN_STAGE_WIDTH] at *
                  omega
              · rcases List.mem_map.mp hw with ⟨w0, hmem, hwv⟩
                have h16 := hmin w0 (List.mem_of_mem_take hmem)
                simp only [MIN_STAGE_WIDTH] at *
                omega
            · simp only [if_neg hri] at hw
              split at hw
              · split at hw
                · rcases List.mem_map.mp hw with ⟨w, hwm, hwv⟩
                  have hge : MIN_STAGE_WIDTH ≤ sl.width := by
                    rw [← hwv]
                    exact le_max_right _ _
                  simp only [MIN_STAGE_WIDTH] at *
                  omega
                · rcases List.mem_map.mp hw with ⟨w0, hmem, hwv⟩
                  have h16 := hmin w0 (List.mem_of_mem_take hmem)
                  simp only [MIN_STAGE_WIDTH] at *
                  omega
              · rcases List.mem_map.mp hw with ⟨w0, hmem, hwv⟩
                have h16 := hmin w0 (List.mem_of_mem_take hmem)
                simp only [MIN_STAGE_WIDTH] at *
                omega
          · refine ih _ _ _ _ _ _ ?_ sl hsl
            intro w hwmem
            exact hmin w (List.mem_of_mem_drop hwmem)

/-- Two minimum-width stages: each ideal width is 16. -/
def layoutNarrowFixture : PipelineDetails := ⟨none, [⟨"a", []⟩, ⟨"b", []⟩]⟩

/-- Two stages with 22-character names: each ideal width is 30. -/
def layoutShrinkFixture : PipelineDetails :=
  ⟨none, [⟨String.mk (List.replicate 22 'a'), []⟩,
          ⟨String.mk (List.replicate 22 'b'), []⟩]⟩

/-- C5 counterexample: with two stages and a 17-column viewport — narrower
than `2 × MIN_STAGE_WIDTH` — the wrap fallback clamps the second row's box to
the row budget `17 - 3 = 14 < 16`, so not every produced stage box width is at
least the minimum stage width as the claim states. -/
theorem C5_narrow_min_width_cex :
    (17 : Nat) < layoutNarrowFixture.stages.length * MIN_STAGE_WIDTH ∧
    ¬ (∀ sl ∈ (calculate_layout layoutNarrowFixture ⟨0, 0, 17, 20⟩).stages,
        MIN_STAGE_WIDTH ≤ sl.width) := by
  decide

/-- C5 (amended): (a) when the summed ideal widths plus connectors exceed the
viewport but the proportionally shrunk widths (each at least the minimum) plus
connectors fit, the layout places all stages in a single row (all boxes share
one `y`); (b) when the viewport is narrower than `stages × MIN_STAGE_WIDTH`
the layout is the multi-row wrap fallback, in which every produced box width
is at least `min MIN_STAGE_WIDTH (viewport - 3)` — the minimum stage width
clamped to the wrap-row budget, which is below the minimum only for viewports
narrower than `MIN_STAGE_WIDTH + 3`. -/
theorem C5_layout_strategies (d : PipelineDetails) (area : Rect) :
    (((d.stages.map calculate_stage_width).sum +
        (d.stages.length - 1) * CONNECTOR_WIDTH > area.width) →
      (((d.stages.map calculate_stage_width).map fun w =>
          max (w * (area.width - (d.stages.length - 1) * CONNECTOR_WIDTH) /
            (d.stages.map calculate_stage_width).sum) MIN_STAGE_WIDTH).sum +
          (d.stages.length - 1) * CONNECTOR_WIDTH ≤ area.width) →
      (calculate_layout d area).stages.length = d.stages.length ∧
      (calculate_layout d area).stages.map StageLayout.y =
        List.replicate d.stages.length (area.y + 1)) ∧
    (area.width < d.stages.length * MIN_STAGE_WIDTH →
      calculate_layout d area =
        wrapLayout d { area with y := area.y + 1, height := area.height - 1 } ∧
      ∀ sl ∈ (calculate_layout d area).stages,
        min MIN_STAGE_WIDTH (area.width - 3) ≤ sl.width) := by
  have hmin16 : ∀ w ∈ d.stages.map calculate_stage_width, MIN_STAGE_WIDTH ≤ w := by
    intro w hw
    rcases List.mem_map.mp hw with ⟨s, _, hsw⟩
    exact hsw ▸ calculate_stage_width_ge_min s
  have hlensum : d.stages.length * MIN_STAGE_WIDTH ≤
      (d.stages.map calculate_stage_width).sum := by
    have := sum_ge_length_mul_min (d.stages.map calculate_stage_width)
      MIN_STAGE_WIDTH hmin16
    simpa using this
  constructor
  · intro hover hfits
    have hne : d.stages.length ≠ 0 := by
      intro hc
      rw [hc] at hover
      have h0 : d.stages = [] := List.length_eq_zero.mp hc
      rw [h0] at hover
      simp at hover
    have hshrunk_ge : d.stages.length * MIN_STAGE_WIDTH ≤
        ((d.stages.map calculate_stage_width).map fun w =>
          max (w * (area.width - (d.stages.length - 1) * CONNECTOR_WIDTH) /
            (d.stages.map calculate_stage_width).sum) MIN_STAGE_WIDTH).sum := by
      have hb : ∀ v ∈ ((d.stages.map calculate_stage_width).map fun w =>
          max (w * (area.width - (d.stages.length - 1) * CONNECTOR_WIDTH) /
            (d.stages.map calculate_stage_width).sum) MIN_STAGE_WIDTH),
          MIN_STAGE_WIDTH ≤ v := by
        intro v hv
        rcases List.mem_map.mp hv with ⟨w, _, hwv⟩
        rw [← hwv]
        exact le_max_right _ _
      have := sum_ge_length_mul_min _ MIN_STAGE_WIDTH hb
      simpa using this
    have hsumpos : 0 < (d.stages.map calculate_stage_width).sum := by
      have h1 : 1 ≤ d.stages.length := Nat.one_le_iff_ne_zero.mpr hne
      have : 1 * MIN_STAGE_WIDTH ≤ d.stages.length * MIN_STAGE_WIDTH :=
        Nat.mul_le_mul_right _ h1
      simp only [MIN_STAGE_WIDTH] at *
      omega
    have havail : (d.stages.map calculate_stage_width).sum ≠ 0 := Nat.pos_iff_ne_zero.mp hsumpos
    unfold calculate_layout
    rw [if_neg hne]
    dsimp only
    rw [if_neg (by omega)]
    rw [if_pos ?guard]
    case guard =>
      refine ⟨hsumpos, ?_, hfits⟩
      -- the shrunk sum is at least n·MIN, and it fits, so the slack bound holds
      omega
    dsimp only
    constructor
    · rw [placeRow_length]
      simp
    · rw [placeRow_map_y]
      simp
  · intro hnarrow
    have hne : d.stages.length ≠ 0 := by
      intro hc
      rw [hc] at hnarrow
      simp at hnarrow
    have hwrap_eq : calculate_layout d area =
        wrapLayout d { area with y := area.y + 1, height := area.height - 1 } := by
      unfold calculate_layout
      rw [if_neg hne]
      dsimp only
      rw [if_neg (by simp only [MIN_STAGE_WIDTH] at *; omega)]
      rw [if_neg ?notshrink]
      case notshrink =>
        rintro ⟨-, hge, -⟩
        have : area.width - (d.stages.length - 1) * CONNECTOR_WIDTH ≤ area.width :=
          Nat.sub_le _ _
        omega
    refine ⟨hwrap_eq, ?_⟩
    rw [hwrap_eq]
    unfold wrapLayout wrapLoop
    intro sl hsl
    exact wrapGo_width_bound _ _ _ _ _ _ _ hmin16 sl hsl

theorem C5_layout_strategies_witness :
    ((calculate_layout layoutShrinkFixture ⟨0, 0, 50, 20⟩).stages.map StageLayout.y =
      List.replicate 2 1) ∧
    (calculate_layout layoutNarrowFixture ⟨0, 0, 17, 20⟩ =
      wrapLayout layoutNarrowFixture ⟨0, 1, 17, 19⟩) := by
  constructor
  · exact ((C5_layout_strategies layoutShrinkFixture ⟨0, 0, 50, 20⟩).1
      (by decide) (by decide)).2
  · exact ((C5_layout_strategies layoutNarrowFixture ⟨0, 0, 17, 20⟩).2 (by decide)).1

/-! ## Claim C9: `row_count` against `calculate_layout` -/

theorem placeRow_mem_y (y h : Nat) (ws : List Nat) (x : Nat) (sl : StageLayout)
    (hsl : sl ∈ placeRow ws x y h) : sl.y = y := by
  have hmap : sl.y ∈ (placeRow ws x y h).map StageLayout.y :=
    List.mem_map_of_mem _ hsl
  rw [placeRow_map_y] at hmap
  exact List.eq_of_mem_replicate hmap

/-- Every stage box produced by the wrap loop sits at or below the `y` cursor
the loop started from. -/
theorem wrapGo_y_mono :
    ∀ (fuel : Nat) (stages : List Stage) (ideal : List Nat) (areaX width ri y0 : Nat),
      ∀ sl ∈ (wrapGo fuel stages ideal areaX width ri y0).1, y0 ≤ sl.y := by
  intro fuel
  induction fuel with
  | zero =>
      intro stages ideal areaX width ri y0 sl hsl
      cases stages <;> simp [wrapGo] at hsl
  | succ f ih =>
      intro stages ideal areaX width ri y0 sl hsl
      cases stages with
      | nil => simp [wrapGo] at hsl
      | cons s0 srest =>
          rw [wrapGo] at hsl
          dsimp only at hsl
          rw [List.mem_append] at hsl
          rcases hsl with hsl | hsl
          · exact le_of_eq (placeRow_mem_y _ _ _ _ _ hsl).symm
          · have := ih _ _ _ _ _ _ sl hsl
            omega

/-- The widths list of a wrap row has the length of its clamped base list. -/
theorem ifmap_length (c1 c2 : Prop) [Decidable c1] [Decidable c2] (l : List Nat)
    (g : Nat → Nat) :
    (if c1 then (if c2 then l.map g else l) else l).length = l.length := by
  split
  · split
    · simp
    · rfl
  · rfl

theorem card_cons_rows (m : Nat) (hm : m ≠ 0) (y0 : Nat) (rys : List Nat)
    (hnot : y0 ∉ rys) :
    ((List.replicate m y0).toFinset ∪ rys.toFinset).card = rys.toFinset.card + 1 := by
  rw [List.toFinset_replicate_of_ne_zero hm, ← Finset.insert_eq,
    Finset.card_insert_of_not_mem (by simpa using hnot)]

/-- The wrap loop produces exactly as many distinct `y` coordinates as
`row_count`'s counting loop counts rows, when run over the same width list
with the same margin state. -/
theorem wrapGo_count :
    ∀ (fuel : Nat) (ws : List Nat) (stages : List Stage),
      stages.length = ws.length → ws.length ≤ fuel →
      ∀ (areaX width r y0 : Nat),
        (((wrapGo fuel stages ws areaX width r y0).1.map StageLayout.y).toFinset).card + r =
          rowCountGo fuel width ws r := by
  intro fuel
  induction fuel with
  | zero =>
      intro ws stages hlen hfuel areaX width r y0
      have hws : ws = [] := List.length_eq_zero.mp (Nat.le_zero.mp hfuel)
      subst hws
      have hst : stages = [] := List.length_eq_zero.mp hlen
      subst hst
      simp [wrapGo, rowCountGo]
  | succ f ih =>
      intro ws stages hlen hfuel areaX width r y0
      cases ws with
      | nil =>
          have hst : stages = [] := List.length_eq_zero.mp hlen
          subst hst
          simp [wrapGo, rowCountGo]
      | cons w0 wrest =>
          cases stages with
          | nil => simp at hlen
          | cons s0 srest =>
              simp only [List.length_cons, Nat.succ_le_succ_iff] at hfuel
              simp only [List.length_cons, Nat.succ_inj] at hlen
              rw [wrapGo, rowCountGo]
              dsimp only
              rw [List.map_append, List.toFinset_append, placeRow_map_y, ifmap_length]
              rw [card_cons_rows _ ?hm _ _ ?hnot]
              case hm =>
                simp only [List.length_map, List.length_take, List.length_cons]
                omega
              case hnot =>
                intro hc
                rcases List.mem_map.mp hc with ⟨sl, hsl, hy⟩
                have := wrapGo_y_mono f _ _ _ _ _ _ sl hsl
                omega
              have hIH := ih
                ((w0 :: wrest).drop
                  (max (takeRowLen (width - if r > 0 then 3 else 0) (w0 :: wrest)) 1))
                ((s0 :: srest).drop
                  (max (takeRowLen (width - if r > 0 then 3 else 0) (w0 :: wrest)) 1))
                (by simp only [List.length_drop, List.length_cons]; omega)
                (by simp only [List.length_drop, List.length_cons]; omega)
                areaX width (r + 1)
                (y0 +
                  ((((s0 :: srest).take
                      (max (takeRowLen (width - if r > 0 then 3 else 0) (w0 :: wrest)) 1)).map
                        fun s => s.jobs.length).max?.getD 0 + 2) +
                  (if ((s0 :: srest).drop
                      (max (takeRowLen (width - if r > 0 then 3 else 0) (w0 :: wrest)) 1)).isEmpty
                    then 0 else 1))
              omega

/-- C9: for every view state and width, `row_count` returns exactly the number
of distinct row `y` coordinates that `calculate_layout` produces for an area
of the same width, at any position and height (the layout never clamps rows by
height).  The two implementations of the fit / shrink / wrap decision agree. -/
theorem C9_row_count_refines_layout (st : PipelineViewState) (w x y h : Nat) :
    st.row_count w =
      (((calculate_layout (st.details.getD ⟨none, []⟩) ⟨x, y, w, h⟩).stages.map
        StageLayout.y).toFinset).card := by
  rcases hdet : st.details with _ | d
  · unfold PipelineViewState.row_count
    rw [hdet]
    unfold calculate_layout
    simp
  · unfold PipelineViewState.row_count
    rw [hdet]
    dsimp only [Option.getD]
    by_cases hempty : d.stages.isEmpty
    · rw [if_pos hempty]
      have hlen0 : d.stages.length = 0 := by
        rw [List.isEmpty_iff] at hempty
        simp [hempty]
      unfold calculate_layout
      rw [if_pos hlen0]
      simp
    · rw [if_neg hempty]
      have hne : d.stages.length ≠ 0 := by
        intro hc
        exact hempty (by simp [List.isEmpty_iff, List.length_eq_zero.mp hc])
      unfold calculate_layout
      rw [if_neg hne]
      dsimp only
      by_cases h1 : (d.stages.map calculate_stage_width).sum +
          (d.stages.length - 1) * CONNECTOR_WIDTH ≤ w
      · rw [if_pos h1, if_pos h1]
        rw [placeRow_map_y, List.toFinset_replicate_of_ne_zero (by simp [hne])]
        simp
      · rw [if_neg h1, if_neg h1]
        by_cases h2 : (d.stages.map calculate_stage_width).sum > 0 ∧
            w - (d.stages.length - 1) * CONNECTOR_WIDTH ≥
              d.stages.length * MIN_STAGE_WIDTH ∧
            ((d.stages.map calculate_stage_width).map fun v =>
              max (v * (w - (d.stages.length - 1) * CONNECTOR_WIDTH) /
                (d.stages.map calculate_stage_width).sum) MIN_STAGE_WIDTH).sum +
              (d.stages.length - 1) * CONNECTOR_WIDTH ≤ w
        · rw [if_pos h2, if_pos h2]
          rw [placeRow_map_y, List.toFinset_replicate_of_ne_zero (by simp [hne])]
          simp
        · rw [if_neg h2, if_neg h2]
          unfold wrapLayout wrapLoop rowCountLoop
          dsimp only
          have hmaplen : (d.stages.map calculate_stage_width).length = d.stages.length :=
            List.length_map _ _
          have hcount := wrapGo_count d.stages.length
            (d.stages.map calculate_stage_width) d.stages hmaplen.symm
            (le_of_eq hmaplen) x w 0 (y + 1)
          rw [hmaplen]
          omega
